import Mathlib

/-!
# Maximum-sum BST subtree (`src/1.cpp`)

A shallow embedding of the three functions of `src/1.cpp`:

* `f`            – the post-order traversal returning `{minVal, maxVal, isBST, sum}`
                   and updating the running best `ans` (lines 14-34);
* `getMaxSumBST` – the driver that starts `ans` at `LLONG_MIN` (lines 36-40);
* `getBinaryTree` – the breadth-first builder over a heap of `Node` records (lines 47-80).

Conventions of the embedding.

* A `Node*` that heads a finite acyclic structure is a `Tree`; `NULL` is `Tree.nil`.
* `long long` values are integers; the additions of line 24 are reduced into the signed
  64-bit range by `wrap64`.
* The `vector<long long>` returned by `f` is a `List Int`; an access `lt[i]` outside the
  vector makes the embedded `f` return `none`.
* `min(a, b, c)` / `max(a, b, c)` of lines 22-23 are the three-way minimum / maximum.
* In the builder a pointer is an index into the list of allocated nodes; `qu.front()` on an
  empty queue, an access `arr[idx]` with `idx ≥ arr.size()` and a dangling pointer give `none`.
  The counter `int idx` is a natural number (exact for arrays of fewer than `2^31` entries).

Besides the embedding the file holds `fInt` (the traversal over unbounded integers),
`pureFold` (the return-value fold of the design notes), the vocabulary of the specification
(`isBST`, `total`, `subtrees`, `levelOrder`, `WellFormed`, ...) and the loop invariants of the
builder (`BuildInv`, `GoodHeap`, `QueueOk`).
-/

namespace MaxSumBST

/-! ## Data model -/

/-- A `Node*`: either `NULL` or a node with a value and two children (lines 5-11). -/
inductive Tree where
  | nil : Tree
  | node (left : Tree) (val : Int) (right : Tree) : Tree
deriving DecidableEq

/-- Largest `long long`. -/
def LLONG_MAX : Int := 9223372036854775807

/-- Smallest `long long`. -/
def LLONG_MIN : Int := -9223372036854775808

/-- Reduction of an integer into the signed 64-bit range (two's complement). -/
def wrap64 (x : Int) : Int := (x + 9223372036854775808) % 18446744073709551616 - 9223372036854775808

/-- Three-way minimum, the reading of `min(a, b, c)` on line 22. -/
def min3 (a b c : Int) : Int := min a (min b c)

/-- Three-way maximum, the reading of `max(a, b, c)` on line 23. -/
def max3 (a b c : Int) : Int := max a (max b c)

/-- Conversion `bool → long long` when the flag is stored in the result vector. -/
def boolToLL (b : Bool) : Int := if b then 1 else 0

/-! ## The evaluator (lines 14-40) -/

/-- The traversal `f(root, ans)`: returns the vector `{mn, mx, flag, sum}` together with the
value of the reference `ans` after the call; `none` when a vector access is out of bounds. -/
def f : Tree → Int → Option (List Int × Int)
  | .nil, ans => some ([LLONG_MAX, LLONG_MIN, boolToLL true, 0], ans)
  | .node left val right, ans =>
    match f left ans with
    | none => none
    | some (lt, ans1) =>
      match f right ans1 with
      | none => none
      | some (rt, ans2) => do
        let mn := min3 val (← lt[0]?) (← rt[0]?)
        let mx := max3 val (← lt[1]?) (← rt[1]?)
        let sum := wrap64 (wrap64 ((← lt[3]?) + (← rt[3]?)) + val)
        let lt2 ← lt[2]?
        let flag0 ← if lt2 ≠ 0 then (do let rt2 ← rt[2]?; pure (decide (rt2 ≠ 0))) else pure false
        let lt1 ← lt[1]?
        let cond ← if lt1 ≥ val then pure true else (do let rt0 ← rt[0]?; pure (decide (rt0 ≤ val)))
        let flag := if cond then false else flag0
        let ans3 := if flag then max ans2 sum else ans2
        pure ([mn, mx, boolToLL flag, sum], ans3)

/-- The driver `getMaxSumBST(root)`: the value of `ans` after `f(root, ans)` started from
`LLONG_MIN`. -/
def getMaxSumBST (root : Tree) : Option Int :=
  match f root LLONG_MIN with
  | none => none
  | some (_, ans) => some ans

/-! ## The builder (lines 47-80) -/

/-- A heap cell holding one `struct Node` (lines 5-11); child pointers are heap indices. -/
structure Node where
  val : Int
  left : Option Nat
  right : Option Nat
deriving DecidableEq

/-- State of the `while` loop of `getBinaryTree`. -/
structure BuildState where
  heap : List Node
  qu : List Nat
  idx : Nat
deriving DecidableEq

/-- The assignment `p->left = c`. -/
def setLeft (heap : List Node) (p : Nat) (c : Option Nat) : Option (List Node) :=
  match heap[p]? with
  | none => none
  | some n => some (heap.set p { n with left := c })

/-- The assignment `p->right = c`. -/
def setRight (heap : List Node) (p : Nat) (c : Option Nat) : Option (List Node) :=
  match heap[p]? with
  | none => none
  | some n => some (heap.set p { n with right := c })

/-- One iteration of the loop body (lines 57-76). -/
def loopBody (arr : List Int) (s : BuildState) : Option BuildState :=
  match s.qu with
  | [] => none
  | curr :: qu1 =>
    match arr[s.idx]? with
    | none => none
    | some x =>
      match (if x = -1 then (setLeft s.heap curr none).map (fun h => (h, qu1))
             else (setLeft (s.heap ++ [⟨x, none, none⟩]) curr (some s.heap.length)).map
               (fun h => (h, qu1 ++ [s.heap.length]))) with
      | none => none
      | some (heap2, qu2) =>
        match arr[s.idx + 1]? with
        | none => none
        | some y =>
          match (if y = -1 then (setRight heap2 curr none).map (fun h => (h, qu2))
                 else (setRight (heap2 ++ [⟨y, none, none⟩]) curr (some heap2.length)).map
                   (fun h => (h, qu2 ++ [heap2.length]))) with
          | none => none
          | some (heap3, qu3) => some ⟨heap3, qu3, s.idx + 1 + 1⟩

/-- The loop `while (idx < arr.size())`, with a bound on the number of iterations. -/
def buildLoop (arr : List Int) : Nat → BuildState → Option BuildState
  | 0, s => if s.idx < arr.length then none else some s
  | fuel + 1, s =>
    if s.idx < arr.length then
      match loopBody arr s with
      | none => none
      | some s2 => buildLoop arr fuel s2
    else some s

/-- The tree reachable from pointer `p` in a heap, to depth `fuel`. -/
def readTree (heap : List Node) : Nat → Option Nat → Option Tree
  | _, none => some Tree.nil
  | 0, some _ => none
  | fuel + 1, some p =>
    match heap[p]? with
    | none => none
    | some n =>
      match readTree heap fuel n.left, readTree heap fuel n.right with
      | some l, some r => some (Tree.node l n.val r)
      | _, _ => none

/-- The builder `getBinaryTree(arr)`; the result is the tree headed by the returned root. -/
def getBinaryTree (arr : List Int) : Option Tree :=
  match arr with
  | [] => some Tree.nil
  | a0 :: _ =>
    match buildLoop arr arr.length ⟨[⟨a0, none, none⟩], [0], 1⟩ with
    | none => none
    | some s => readTree s.heap s.heap.length (some 0)

/-- The composition used by `main`: build the tree, then evaluate it. -/
def run (arr : List Int) : Option Int :=
  match getBinaryTree arr with
  | none => none
  | some t => getMaxSumBST t

/-! ## Components of the traversal as plain recursions

Each function below is one component of what `f` returns, read off the body of `f`;
`f_eq` shows that `f` returns exactly these. -/

/-- First component `mn` (line 22). -/
def minOf : Tree → Int
  | .nil => LLONG_MAX
  | .node l v r => min3 v (minOf l) (minOf r)

/-- Second component `mx` (line 23). -/
def maxOf : Tree → Int
  | .nil => LLONG_MIN
  | .node l v r => max3 v (maxOf l) (maxOf r)

/-- Fourth component `sum` (line 24), with 64-bit additions. -/
def sumOf : Tree → Int
  | .nil => 0
  | .node l v r => wrap64 (wrap64 (sumOf l + sumOf r) + v)

/-- Third component `flag` (lines 26-29). -/
def flagOf : Tree → Bool
  | .nil => true
  | .node l v r =>
    if maxOf l ≥ v ∨ minOf r ≤ v then false else (flagOf l && flagOf r)

/-- Value of `ans` after `f(t, ans)` (lines 19-20 and 30-32). -/
def ansOf : Tree → Int → Int
  | .nil, a => a
  | .node l v r, a =>
    if flagOf (.node l v r) then max (ansOf r (ansOf l a)) (sumOf (.node l v r))
    else ansOf r (ansOf l a)

/-- Best sum recorded by a traversal started at `LLONG_MIN`. -/
def best (t : Tree) : Int := ansOf t LLONG_MIN

/-! ## Vocabulary of the specification -/

/-- All node values of a tree (in-order). -/
def values : Tree → List Int
  | .nil => []
  | .node l v r => values l ++ v :: values r

/-- Exact (unbounded) sum of the node values. -/
def total : Tree → Int
  | .nil => 0
  | .node l v r => total l + total r + v

/-- Number of nodes. -/
def size : Tree → Nat
  | .nil => 0
  | .node l _ r => size l + size r + 1

/-- The strict BST property of the glossary: at every node all values of the left subtree are
strictly smaller and all values of the right subtree strictly greater than the node's value. -/
def isBST : Tree → Bool
  | .nil => true
  | .node l v r =>
    (values l).all (fun x => decide (x < v)) && (values r).all (fun x => decide (v < x))
      && isBST l && isBST r

/-- The subtrees of a tree: one for each node, the node with all its descendants. -/
def subtrees : Tree → List Tree
  | .nil => []
  | .node l v r => .node l v r :: (subtrees l ++ subtrees r)

/-- Values of the leaves (nodes with two empty children). -/
def leaves : Tree → List Int
  | .nil => []
  | .node l v r => if l = .nil ∧ r = .nil then [v] else leaves l ++ leaves r

/-- A value in the range of a signed 32-bit `int`. -/
def In32 (v : Int) : Prop := -2147483648 ≤ v ∧ v ≤ 2147483647

instance (v : Int) : Decidable (In32 v) := by unfold In32; infer_instance

/-- The single-node tree with value `v`. -/
def leaf (v : Int) : Tree := .node .nil v .nil

/-! ## The same traversal over unbounded integers, and as a pure fold -/

/-- The body of `f` with the additions of line 24 carried out over the unbounded integers
(no reduction to 64 bits); everything else is the text of `f`. -/
def fInt : Tree → Int → Option (List Int × Int)
  | .nil, ans => some ([LLONG_MAX, LLONG_MIN, boolToLL true, 0], ans)
  | .node left val right, ans =>
    match fInt left ans with
    | none => none
    | some (lt, ans1) =>
      match fInt right ans1 with
      | none => none
      | some (rt, ans2) => do
        let mn := min3 val (← lt[0]?) (← rt[0]?)
        let mx := max3 val (← lt[1]?) (← rt[1]?)
        let sum := (← lt[3]?) + (← rt[3]?) + val
        let lt2 ← lt[2]?
        let flag0 ← if lt2 ≠ 0 then (do let rt2 ← rt[2]?; pure (decide (rt2 ≠ 0))) else pure false
        let lt1 ← lt[1]?
        let cond ← if lt1 ≥ val then pure true else (do let rt0 ← rt[0]?; pure (decide (rt0 ≤ val)))
        let flag := if cond then false else flag0
        let ans3 := if flag then max ans2 sum else ans2
        pure ([mn, mx, boolToLL flag, sum], ans3)

/-- The driver over unbounded integers. -/
def getMaxSumBSTInt (root : Tree) : Option Int :=
  match fInt root LLONG_MIN with
  | none => none
  | some (_, ans) => some ans

/-- The return-value-based fold of the design notes: each call returns the four-tuple
`(min, max, isBST, sum)` of its subtree together with the best sum found inside that subtree;
nothing is passed down. -/
def pureFold : Tree → (Int × Int × Bool × Int) × Int
  | .nil => ((LLONG_MAX, LLONG_MIN, true, 0), LLONG_MIN)
  | .node l v r =>
    let lt := pureFold l
    let rt := pureFold r
    let mn := min3 v lt.1.1 rt.1.1
    let mx := max3 v lt.1.2.1 rt.1.2.1
    let sum := wrap64 (wrap64 (lt.1.2.2.2 + rt.1.2.2.2) + v)
    let flag := lt.1.2.2.1 && rt.1.2.2.1 && !(decide (lt.1.2.1 ≥ v) || decide (rt.1.1 ≤ v))
    let b := max lt.2 rt.2
    ((mn, mx, flag, sum), if flag then max b sum else b)

/-! ## Vocabulary for the builder -/

/-- Entries different from the sentinel `-1`, in order. -/
def nonSentinel (l : List Int) : List Int := l.filter (fun x => decide (x ≠ -1))

/-- A well-formed input array: odd length, and for every `k` with `2k+1 < arr.size()`,
one plus the number of non-sentinel entries among `arr[1..2k]` is greater than `k`. -/
def WellFormed (arr : List Int) : Prop :=
  arr.length % 2 = 1 ∧
    ∀ k, 2 * k + 1 < arr.length → k < 1 + (nonSentinel ((arr.drop 1).take (2 * k))).length

/-- Breadth-first traversal of a queue of subtrees: the front node is visited and its
non-empty children are appended at the back, left before right. -/
def bfs : Nat → List Tree → List Int
  | 0, _ => []
  | _ + 1, [] => []
  | fuel + 1, .nil :: q => bfs fuel q
  | fuel + 1, .node l v r :: q =>
    v :: bfs fuel (q ++ ((if l = .nil then [] else [l]) ++ (if r = .nil then [] else [r])))

/-- Level-order listing of the node values of a tree (one queue step per node). -/
def levelOrder (t : Tree) : List Int := bfs (size t) [t]

/-- The initial state of the loop of `getBinaryTree` (lines 51-54). -/
def initState (a0 : Int) : BuildState := ⟨[⟨a0, none, none⟩], [0], 1⟩

/-- The state after exactly `k` iterations of the loop; `none` when the loop has stopped or
an iteration has failed before. -/
def runIters (arr : List Int) : Nat → BuildState → Option BuildState
  | 0, s => some s
  | k + 1, s =>
    if s.idx < arr.length then
      match loopBody arr s with
      | none => none
      | some s2 => runIters arr k s2
    else none

/-- Non-null child pointers of a heap cell, left before right. -/
def ptrs (n : Node) : List Nat := n.left.toList ++ n.right.toList

/-- All non-null child pointers of a heap, in heap order. -/
def kids : List Node → List Nat
  | [] => []
  | n :: h => ptrs n ++ kids h

/-- The tree headed by heap cell `i` (empty when the reading fails). -/
def treeAt (h : List Node) (i : Nat) : Tree := (readTree h h.length (some i)).getD .nil

/-- The tree behind a child pointer. -/
def optTree (h : List Node) : Option Nat → Tree
  | none => .nil
  | some p => treeAt h p

/-- Shape of the heap the builder leaves: the child pointers, read in heap order, are
`1, 2, ..., n-1`, and when cell `i` is reached at least `i` pointers have been read. -/
def GoodHeap (h : List Node) : Prop :=
  h ≠ [] ∧ kids h = List.range' 1 (h.length - 1) ∧
    ∀ i, i < h.length → i ≤ (kids (h.take i)).length

/-- Loop invariant of `getBinaryTree` on the array `a0 :: rest` after `c` iterations: the heap
splits into `c` processed cells and the childless cells still in the queue. -/
def BuildInv (a0 : Int) (rest : List Int) (s : BuildState) (c : Nat) : Prop :=
  ∃ P U, s.heap = P ++ U ∧ P.length = c ∧ (∀ u ∈ U, u.left = none ∧ u.right = none) ∧
    s.qu = List.range' c U.length ∧ s.idx = 2 * c + 1 ∧
    kids P = List.range' 1 (P.length + U.length - 1) ∧
    (∀ i, i < c → i ≤ (kids (P.take i)).length) ∧
    (P ++ U).map Node.val = a0 :: nonSentinel (rest.take (2 * c)) ∧ 2 * c ≤ rest.length

/-- Weak loop invariant: queued pointers are allocated cells and `idx` is odd. -/
def QueueOk (s : BuildState) : Prop := (∀ p ∈ s.qu, p < s.heap.length) ∧ s.idx % 2 = 1

/-! ## The traversal returns the components -/

theorem f_eq (t : Tree) (a : Int) :
    f t a = some ([minOf t, maxOf t, boolToLL (flagOf t), sumOf t], ansOf t a) := by
  induction t generalizing a with
  | nil => rfl
  | node l v r ihl ihr =>
    simp only [f, ihl, ihr]
    cases hl : flagOf l <;> cases hr : flagOf r <;>
      by_cases h1 : v ≤ maxOf l <;> by_cases h2 : minOf r ≤ v <;>
      simp [minOf, maxOf, sumOf, flagOf, ansOf, boolToLL, hl, hr, h1, h2]

theorem getMaxSumBST_eq (t : Tree) : getMaxSumBST t = some (best t) := by
  simp [getMaxSumBST, f_eq, best]

theorem wrap64_id (x : Int) (h1 : LLONG_MIN ≤ x) (h2 : x ≤ LLONG_MAX) : wrap64 x = x := by
  unfold wrap64; unfold LLONG_MIN at h1; unfold LLONG_MAX at h2; omega

theorem wrap64_range (x : Int) : LLONG_MIN ≤ wrap64 x ∧ wrap64 x ≤ LLONG_MAX := by
  unfold wrap64 LLONG_MIN LLONG_MAX; omega

theorem le_ansOf (t : Tree) (a : Int) : a ≤ ansOf t a := by
  induction t generalizing a with
  | nil => simp [ansOf]
  | node l v r ihl ihr =>
    have h1 := ihl a
    have h2 := ihr (ansOf l a)
    simp only [ansOf]
    split <;> omega

theorem ansOf_eq (t : Tree) (a : Int) (ha : LLONG_MIN ≤ a) : ansOf t a = max a (best t) := by
  induction t generalizing a with
  | nil => simp [ansOf, best]; exact ha
  | node l v r ihl ihr =>
    have h1 := ihl a ha
    have h2 := ihr (ansOf l a) (le_trans ha (le_ansOf l a))
    have h3 := ihr (best l) (le_ansOf l _)
    have h4 : LLONG_MIN ≤ best l := le_ansOf l _
    have h5 : LLONG_MIN ≤ best r := le_ansOf r _
    simp only [best, ansOf] at *
    split <;> omega

theorem best_node (l r : Tree) (v : Int) :
    best (.node l v r) =
      if flagOf (.node l v r) then max (max (best l) (best r)) (sumOf (.node l v r))
      else max (best l) (best r) := by
  have h1 : ansOf r (ansOf l LLONG_MIN) = max (best l) (best r) :=
    ansOf_eq r _ (le_ansOf l _)
  simp only [best, ansOf] at *
  rw [h1]

theorem maxOf_lt_iff (t : Tree) (v : Int) :
    maxOf t < v ↔ LLONG_MIN < v ∧ ∀ x ∈ values t, x < v := by
  induction t with
  | nil => simp [maxOf, values]
  | node l w r ihl ihr =>
    simp only [maxOf, max3, values, max_lt_iff, ihl, ihr, List.mem_append, List.mem_cons]
    constructor
    · rintro ⟨h1, ⟨h2, h3⟩, h4, h5⟩
      refine ⟨h2, ?_⟩
      rintro x (hx | rfl | hx)
      · exact h3 x hx
      · exact h1
      · exact h5 x hx
    · rintro ⟨h1, h2⟩
      exact ⟨h2 w (Or.inr (Or.inl rfl)), ⟨h1, fun x hx => h2 x (Or.inl hx)⟩,
        h1, fun x hx => h2 x (Or.inr (Or.inr hx))⟩

theorem lt_minOf_iff (t : Tree) (v : Int) :
    v < minOf t ↔ v < LLONG_MAX ∧ ∀ x ∈ values t, v < x := by
  induction t with
  | nil => simp [minOf, values]
  | node l w r ihl ihr =>
    simp only [minOf, min3, values, lt_min_iff, ihl, ihr, List.mem_append, List.mem_cons]
    constructor
    · rintro ⟨h1, ⟨h2, h3⟩, h4, h5⟩
      refine ⟨h2, ?_⟩
      rintro x (hx | rfl | hx)
      · exact h3 x hx
      · exact h1
      · exact h5 x hx
    · rintro ⟨h1, h2⟩
      exact ⟨h2 w (Or.inr (Or.inl rfl)), ⟨h1, fun x hx => h2 x (Or.inl hx)⟩,
        h1, fun x hx => h2 x (Or.inr (Or.inr hx))⟩

theorem flagOf_eq_isBST (t : Tree) (h : ∀ x ∈ values t, LLONG_MIN < x ∧ x < LLONG_MAX) :
    flagOf t = isBST t := by
  induction t with
  | nil => rfl
  | node l v r ihl ihr =>
    have hv : LLONG_MIN < v ∧ v < LLONG_MAX := h v (by simp [values])
    have hl := ihl (fun x hx => h x (by simp [values, hx]))
    have hr := ihr (fun x hx => h x (by simp [values, hx]))
    have e1 := maxOf_lt_iff l v
    have e2 := lt_minOf_iff r v
    rw [Bool.eq_iff_iff]
    simp only [flagOf, isBST, Bool.and_eq_true, List.all_eq_true, decide_eq_true_eq, hl, hr,
      ge_iff_le]
    by_cases c : v ≤ maxOf l ∨ minOf r ≤ v
    · rw [if_pos c]
      constructor
      · intro hf; cases hf
      · rintro ⟨⟨⟨a1, a2⟩, -⟩, -⟩
        have b1 := e1.2 ⟨hv.1, a1⟩
        have b2 := e2.2 ⟨hv.2, a2⟩
        omega
    · rw [if_neg c, Bool.and_eq_true]
      have b1 : maxOf l < v := by omega
      have b2 : v < minOf r := by omega
      have a1 := (e1.1 b1).2
      have a2 := (e2.1 b2).2
      constructor
      · rintro ⟨p, q⟩; exact ⟨⟨⟨a1, a2⟩, p⟩, q⟩
      · rintro ⟨⟨-, p⟩, q⟩; exact ⟨p, q⟩

theorem total_bounds (t : Tree) (h : ∀ x ∈ values t, In32 x) :
    -2147483648 * (size t : Int) ≤ total t ∧ total t ≤ 2147483647 * (size t : Int) := by
  induction t with
  | nil => simp [size, total]
  | node l v r ihl ihr =>
    have hv : In32 v := h v (by simp [values])
    have hl := ihl (fun x hx => h x (by simp [values, hx]))
    have hr := ihr (fun x hx => h x (by simp [values, hx]))
    unfold In32 at hv
    simp only [size, total]
    push_cast
    omega

theorem sumOf_eq_total (t : Tree) (h : ∀ x ∈ values t, In32 x) (hs : size t < 2147483648) :
    sumOf t = total t := by
  induction t with
  | nil => rfl
  | node l v r ihl ihr =>
    have hv : In32 v := h v (by simp [values])
    have h32l : ∀ x ∈ values l, In32 x := fun x hx => h x (by simp [values, hx])
    have h32r : ∀ x ∈ values r, In32 x := fun x hx => h x (by simp [values, hx])
    simp only [size] at hs
    have hl := ihl h32l (by omega)
    have hr := ihr h32r (by omega)
    have bl := total_bounds l h32l
    have br := total_bounds r h32r
    unfold In32 at hv
    simp only [sumOf, total, hl, hr]
    rw [wrap64_id (total l + total r), wrap64_id]
    all_goals (simp only [LLONG_MIN, LLONG_MAX]; omega)

/-! ## The best sum is the maximum over the BST subtrees -/

theorem subtrees_values (t s : Tree) (hs : s ∈ subtrees t) : ∀ x ∈ values s, x ∈ values t := by
  induction t with
  | nil => simp [subtrees] at hs
  | node l v r ihl ihr =>
    simp only [subtrees, List.mem_cons, List.mem_append] at hs
    rcases hs with rfl | hs | hs
    · exact fun x hx => hx
    · intro x hx; simp [values, ihl hs x hx]
    · intro x hx; simp [values, ihr hs x hx]

theorem subtrees_size (t s : Tree) (hs : s ∈ subtrees t) : size s ≤ size t := by
  induction t with
  | nil => simp [subtrees] at hs
  | node l v r ihl ihr =>
    simp only [subtrees, List.mem_cons, List.mem_append] at hs
    rcases hs with rfl | hs | hs
    · exact le_refl _
    · have := ihl hs; simp only [size]; omega
    · have := ihr hs; simp only [size]; omega

theorem subtrees_trans (t s u : Tree) (hs : s ∈ subtrees t) (hu : u ∈ subtrees s) :
    u ∈ subtrees t := by
  induction t with
  | nil => simp [subtrees] at hs
  | node l v r ihl ihr =>
    simp only [subtrees, List.mem_cons, List.mem_append] at hs
    rcases hs with rfl | hs | hs
    · exact hu
    · simp [subtrees, ihl hs]
    · simp [subtrees, ihr hs]

theorem exists_bst_subtree (t : Tree) (hne : t ≠ .nil) :
    ∃ s ∈ subtrees t, isBST s = true := by
  induction t with
  | nil => exact absurd rfl hne
  | node l v r ihl ihr =>
    by_cases hl : l = .nil
    · by_cases hr : r = .nil
      · subst hl; subst hr
        exact ⟨.node .nil v .nil, by simp [subtrees], by simp [isBST, values]⟩
      · obtain ⟨s, hs, hb⟩ := ihr hr
        exact ⟨s, by simp [subtrees, hs], hb⟩
    · obtain ⟨s, hs, hb⟩ := ihl hl
      exact ⟨s, by simp [subtrees, hs], hb⟩

theorem in32_inner (t : Tree) (h : ∀ x ∈ values t, In32 x) :
    ∀ x ∈ values t, LLONG_MIN < x ∧ x < LLONG_MAX := by
  intro x hx
  have := h x hx
  unfold In32 at this
  simp only [LLONG_MIN, LLONG_MAX]
  omega

theorem best_max_aux (t : Tree) (h : ∀ x ∈ values t, In32 x) (hs : size t < 2147483648) :
    (∀ s ∈ subtrees t, isBST s = true → total s ≤ best t) ∧
    (best t = LLONG_MIN ∨ ∃ s ∈ subtrees t, isBST s = true ∧ total s = best t) := by
  induction t with
  | nil => simp [subtrees, best, ansOf]
  | node l v r ihl ihr =>
    have h32l : ∀ x ∈ values l, In32 x := fun x hx => h x (by simp [values, hx])
    have h32r : ∀ x ∈ values r, In32 x := fun x hx => h x (by simp [values, hx])
    have hsz := hs
    simp only [size] at hsz
    obtain ⟨ul, el⟩ := ihl h32l (by omega)
    obtain ⟨ur, er⟩ := ihr h32r (by omega)
    have hflag := flagOf_eq_isBST _ (in32_inner _ h)
    have hsum := sumOf_eq_total _ h hs
    have hb := best_node l r v
    rw [hflag, hsum] at hb
    have ml : LLONG_MIN ≤ best l := le_ansOf l _
    have mr : LLONG_MIN ≤ best r := le_ansOf r _
    constructor
    · intro s hs hbst
      simp only [subtrees, List.mem_cons, List.mem_append] at hs
      rcases hs with rfl | hs | hs
      · rw [hb, if_pos hbst]; omega
      · have := ul s hs hbst
        rw [hb]; split <;> omega
      · have := ur s hs hbst
        rw [hb]; split <;> omega
    · have liftl : (∃ s ∈ subtrees l, isBST s = true ∧ total s = best l) →
          ∃ s ∈ subtrees (.node l v r), isBST s = true ∧ total s = best l := by
        rintro ⟨s, hs, p⟩; exact ⟨s, by simp [subtrees, hs], p⟩
      have liftr : (∃ s ∈ subtrees r, isBST s = true ∧ total s = best r) →
          ∃ s ∈ subtrees (.node l v r), isBST s = true ∧ total s = best r := by
        rintro ⟨s, hs, p⟩; exact ⟨s, by simp [subtrees, hs], p⟩
      have key : max (best l) (best r) = LLONG_MIN ∨
          ∃ s ∈ subtrees (.node l v r), isBST s = true ∧ total s = max (best l) (best r) := by
        rcases le_total (best l) (best r) with c | c
        · rw [max_eq_right c]
          rcases er with e | e
          · left; exact e
          · right; exact liftr e
        · rw [max_eq_left c]
          rcases el with e | e
          · left; exact e
          · right; exact liftl e
      rw [hb]
      split
      · rename_i hbst
        rcases le_total (max (best l) (best r)) (total (.node l v r)) with c | c
        · rw [max_eq_right c]
          right; exact ⟨_, by simp [subtrees], hbst, rfl⟩
        · rw [max_eq_left c]; exact key
      · exact key

/-- C1. For a non-empty tree with 32-bit values and fewer than `2^31` nodes, `getMaxSumBST`
returns the maximum of the subtree sums over the subtrees that satisfy the strict BST
property: the returned value is the sum of one such subtree and no such subtree has a
larger sum. -/
theorem getMaxSumBST_eq_max_bst_sum (t : Tree) (hne : t ≠ .nil)
    (h32 : ∀ x ∈ values t, In32 x) (hsz : size t < 2147483648) :
    ∃ m, getMaxSumBST t = some m ∧
      (∃ s ∈ subtrees t, isBST s = true ∧ total s = m) ∧
      (∀ s ∈ subtrees t, isBST s = true → total s ≤ m) := by
  obtain ⟨ub, ex⟩ := best_max_aux t h32 hsz
  refine ⟨best t, getMaxSumBST_eq t, ?_, ub⟩
  rcases ex with e | e
  · exfalso
    obtain ⟨s, hs, hb⟩ := exists_bst_subtree t hne
    have h1 := ub s hs hb
    have h2 := total_bounds s (fun x hx => h32 x (subtrees_values t s hs x hx))
    have h3 := subtrees_size t s hs
    rw [e] at h1
    simp only [LLONG_MIN] at h1
    omega
  · exact e

/-- Witness for C1 on the tree `1(4(2,4),3(2,5))`. -/
theorem getMaxSumBST_eq_max_bst_sum_witness :
    ∃ m, getMaxSumBST (.node (.node (leaf 2) 4 (leaf 4)) 1 (.node (leaf 2) 3 (leaf 5))) = some m ∧
      (∃ s ∈ subtrees (.node (.node (leaf 2) 4 (leaf 4)) 1 (.node (leaf 2) 3 (leaf 5))),
        isBST s = true ∧ total s = m) ∧
      (∀ s ∈ subtrees (.node (.node (leaf 2) 4 (leaf 4)) 1 (.node (leaf 2) 3 (leaf 5))),
        isBST s = true → total s ≤ m) :=
  getMaxSumBST_eq_max_bst_sum _ (by decide) (by decide) (by decide)


/-! ## Single-node trees -/

/-- C2 (counterexample). On the single node holding `LLONG_MAX` the comparison
`rt[0] <= root->val` of line 27 meets the sentinel of the empty right child, the node is
not flagged, and the result is `LLONG_MIN`, not the node's value. -/
theorem getMaxSumBST_leaf_LLONG_MAX :
    getMaxSumBST (leaf LLONG_MAX) = some LLONG_MIN ∧
      getMaxSumBST (leaf LLONG_MAX) ≠ some LLONG_MAX := by
  decide

/-- C2 (amended). For every 64-bit value `v` other than `LLONG_MAX` (so `LLONG_MIN` included),
`getMaxSumBST` on the single-node tree with value `v` returns `v`. -/
theorem getMaxSumBST_leaf (v : Int) (h1 : LLONG_MIN ≤ v) (h2 : v < LLONG_MAX) :
    getMaxSumBST (leaf v) = some v := by
  rw [getMaxSumBST_eq]
  have hw : wrap64 v = v := wrap64_id v h1 (le_of_lt h2)
  have h0 : wrap64 (0 + 0) = 0 := by decide
  have h00 : wrap64 0 = 0 := by decide
  simp only [leaf, best, ansOf, flagOf, sumOf, maxOf, minOf, h0, h00, zero_add, hw]
  by_cases c : LLONG_MIN ≥ v ∨ LLONG_MAX ≤ v
  · rw [if_pos c]; simp; omega
  · rw [if_neg c]; simp; omega

/-- Witness for C2 (amended), at the smallest 64-bit value. -/
theorem getMaxSumBST_leaf_witness : getMaxSumBST (leaf LLONG_MIN) = some LLONG_MIN :=
  getMaxSumBST_leaf LLONG_MIN (by decide) (by decide)


/-! ## Trees that are BSTs in their entirety -/

theorem isBST_node (l r : Tree) (v : Int) :
    isBST (.node l v r) = true ↔
      (∀ x ∈ values l, x < v) ∧ (∀ x ∈ values r, v < x) ∧ isBST l = true ∧ isBST r = true := by
  simp only [isBST, Bool.and_eq_true, List.all_eq_true, decide_eq_true_eq]
  tauto

theorem bst_size_le (t : Tree) (a b : Int) (hb : isBST t = true)
    (hr : ∀ x ∈ values t, a ≤ x ∧ x ≤ b) (hab : a ≤ b + 1) : (size t : Int) ≤ b - a + 1 := by
  induction t generalizing a b with
  | nil => simp only [size]; push_cast; omega
  | node l v r ihl ihr =>
    obtain ⟨h1, h2, h3, h4⟩ := (isBST_node l r v).1 hb
    have hv := hr v (by simp [values])
    have sl := ihl a (v - 1) h3
      (fun x hx => ⟨(hr x (by simp [values, hx])).1, by have := h1 x hx; omega⟩) (by omega)
    have sr := ihr (v + 1) b h4
      (fun x hx => ⟨by have := h2 x hx; omega, (hr x (by simp [values, hx])).2⟩) (by omega)
    simp only [size]
    push_cast
    omega

theorem sumOf_eq_total_of_bst (t : Tree) (hb : isBST t = true) (h : ∀ x ∈ values t, In32 x) :
    sumOf t = total t := by
  induction t with
  | nil => rfl
  | node l v r ihl ihr =>
    obtain ⟨-, -, h3, h4⟩ := (isBST_node l r v).1 hb
    have hv : In32 v := h v (by simp [values])
    have h32l : ∀ x ∈ values l, In32 x := fun x hx => h x (by simp [values, hx])
    have h32r : ∀ x ∈ values r, In32 x := fun x hx => h x (by simp [values, hx])
    have hl := ihl h3 h32l
    have hr := ihr h4 h32r
    have bl := total_bounds l h32l
    have br := total_bounds r h32r
    have hs := bst_size_le _ (-2147483648) 2147483647 hb h (by omega)
    simp only [size] at hs
    push_cast at hs
    unfold In32 at hv
    simp only [sumOf, total, hl, hr]
    rw [wrap64_id (total l + total r), wrap64_id]
    all_goals (simp only [LLONG_MIN, LLONG_MAX]; omega)

theorem total_nonneg (t : Tree) (h : ∀ x ∈ values t, 0 ≤ x) : 0 ≤ total t := by
  induction t with
  | nil => simp [total]
  | node l v r ihl ihr =>
    have hv := h v (by simp [values])
    have hl := ihl (fun x hx => h x (by simp [values, hx]))
    have hr := ihr (fun x hx => h x (by simp [values, hx]))
    simp only [total]; omega

theorem best_le_total_of_bst (t : Tree) (hb : isBST t = true) (h : ∀ x ∈ values t, In32 x)
    (h0 : ∀ x ∈ values t, 0 ≤ x) : best t ≤ total t := by
  induction t with
  | nil => decide
  | node l v r ihl ihr =>
    obtain ⟨-, -, h3, h4⟩ := (isBST_node l r v).1 hb
    have hv := h0 v (by simp [values])
    have h32l : ∀ x ∈ values l, In32 x := fun x hx => h x (by simp [values, hx])
    have h32r : ∀ x ∈ values r, In32 x := fun x hx => h x (by simp [values, hx])
    have h0l : ∀ x ∈ values l, 0 ≤ x := fun x hx => h0 x (by simp [values, hx])
    have h0r : ∀ x ∈ values r, 0 ≤ x := fun x hx => h0 x (by simp [values, hx])
    have hl := ihl h3 h32l h0l
    have hr := ihr h4 h32r h0r
    have nl := total_nonneg l h0l
    have nr := total_nonneg r h0r
    have hsum := sumOf_eq_total_of_bst _ hb h
    have hbn := best_node l r v
    rw [flagOf_eq_isBST _ (in32_inner _ h), hb, if_pos rfl, hsum] at hbn
    rw [hbn]
    simp only [total]
    omega

/-- C3 (counterexample). The two-node tree with root `-1` and left child `-2` is a strict BST
with 32-bit values and total `-3`, yet `getMaxSumBST` returns `-2`, the sum of the leaf. -/
theorem getMaxSumBST_bst_negative :
    isBST (.node (leaf (-2)) (-1) .nil) = true ∧
      (∀ x ∈ values (.node (leaf (-2)) (-1) .nil), In32 x) ∧
      total (.node (leaf (-2)) (-1) .nil) = -3 ∧
      getMaxSumBST (.node (leaf (-2)) (-1) .nil) = some (-2) := by
  decide

/-- C3 (amended). For a non-empty tree that is a strict BST in its entirety, with 32-bit
values, `getMaxSumBST` returns at least the sum of all node values, and exactly that sum
when no node value is negative. -/
theorem getMaxSumBST_of_bst (t : Tree) (hne : t ≠ .nil) (hb : isBST t = true)
    (h32 : ∀ x ∈ values t, In32 x) :
    ∃ m, getMaxSumBST t = some m ∧ total t ≤ m ∧ ((∀ x ∈ values t, 0 ≤ x) → m = total t) := by
  refine ⟨best t, getMaxSumBST_eq t, ?_, ?_⟩
  · cases t with
    | nil => exact absurd rfl hne
    | node l v r =>
      have hsum := sumOf_eq_total_of_bst _ hb h32
      have hbn := best_node l r v
      rw [flagOf_eq_isBST _ (in32_inner _ h32), hb, if_pos rfl, hsum] at hbn
      rw [hbn]
      omega
  · intro h0
    apply le_antisymm (best_le_total_of_bst t hb h32 h0)
    cases t with
    | nil => exact absurd rfl hne
    | node l v r =>
      have hsum := sumOf_eq_total_of_bst _ hb h32
      have hbn := best_node l r v
      rw [flagOf_eq_isBST _ (in32_inner _ h32), hb, if_pos rfl, hsum] at hbn
      rw [hbn]
      omega

/-- Witness for C3 (amended) on the BST `2(1,3)`, whose values are non-negative: the result
is the total `6`. -/
theorem getMaxSumBST_of_bst_witness :
    getMaxSumBST (.node (leaf 1) 2 (leaf 3)) = some 6 ∧ total (.node (leaf 1) 2 (leaf 3)) = 6 := by
  obtain ⟨m, h1, -, h3⟩ :=
    getMaxSumBST_of_bst (.node (leaf 1) 2 (leaf 3)) (by decide) (by decide) (by decide)
  have h4 : m = total (.node (leaf 1) 2 (leaf 3)) := h3 (by decide)
  have h5 : total (.node (leaf 1) 2 (leaf 3)) = 6 := by decide
  rw [h1, h4, h5]
  exact ⟨rfl, rfl⟩


/-! ## The empty tree -/

/-- C4. On the empty tree `f` returns `{LLONG_MAX, LLONG_MIN, true, 0}` and leaves `ans` as it
was, so `getMaxSumBST` returns its initial value `LLONG_MIN = -2^63`, which is not `0`. -/
theorem getMaxSumBST_nil :
    getMaxSumBST .nil = some LLONG_MIN ∧
      LLONG_MIN = -(2 : Int) ^ 63 ∧ LLONG_MIN ≠ 0 ∧
      ∀ a : Int, f .nil a = some ([LLONG_MAX, LLONG_MIN, 1, 0], a) := by
  refine ⟨rfl, by decide, by decide, fun a => rfl⟩

/-! ## Leaves and duplicates -/

theorem leaf_components (v : Int) (h1 : LLONG_MIN < v) (h2 : v < LLONG_MAX) :
    flagOf (leaf v) = true ∧ sumOf (leaf v) = v := by
  have hw : wrap64 v = v := wrap64_id v (le_of_lt h1) (le_of_lt h2)
  have h00 : wrap64 0 = 0 := by decide
  constructor
  · have c : ¬ (LLONG_MIN ≥ v ∨ LLONG_MAX ≤ v) := by omega
    simp only [leaf, flagOf, maxOf, minOf]
    rw [if_neg c]; rfl
  · simp only [leaf, sumOf, add_zero, h00, zero_add, hw]

theorem le_best_leaf (v : Int) (h1 : LLONG_MIN < v) (h2 : v < LLONG_MAX) : v ≤ best (leaf v) := by
  obtain ⟨hf, hs⟩ := leaf_components v h1 h2
  have hb := best_node .nil .nil v
  simp only [leaf] at hf hs
  rw [hf, if_pos rfl, hs] at hb
  simp only [leaf]
  rw [hb]
  omega

theorem best_ge_children (l r : Tree) (v : Int) :
    best l ≤ best (.node l v r) ∧ best r ≤ best (.node l v r) := by
  rw [best_node]
  split <;> constructor <;> omega

/-- C5 (counterexample). In the tree with root `5` and right child `3` the root is not
flagged (its right minimum `3` is not greater than `5`), so the result is `3`, smaller than
the node value `5`. -/
theorem getMaxSumBST_lt_node_value :
    getMaxSumBST (.node .nil 5 (leaf 3)) = some 3 ∧
      (5 : Int) ∈ values (.node .nil 5 (leaf 3)) ∧
      (∀ x ∈ values (.node .nil 5 (leaf 3)), In32 x) ∧ (3 : Int) < 5 := by
  decide

/-- C5 (amended). For every tree with 32-bit values, `getMaxSumBST` returns a value greater
than or equal to the value of every leaf, hence to the maximum leaf value. -/
theorem getMaxSumBST_ge_leaves (t : Tree) (h32 : ∀ x ∈ values t, In32 x) :
    ∃ m, getMaxSumBST t = some m ∧ ∀ v ∈ leaves t, v ≤ m := by
  refine ⟨best t, getMaxSumBST_eq t, ?_⟩
  induction t with
  | nil => simp [leaves]
  | node l w r ihl ihr =>
    have h32l : ∀ x ∈ values l, In32 x := fun x hx => h32 x (by simp [values, hx])
    have h32r : ∀ x ∈ values r, In32 x := fun x hx => h32 x (by simp [values, hx])
    have hl := ihl h32l
    have hr := ihr h32r
    obtain ⟨cl, cr⟩ := best_ge_children l r w
    intro v hv
    simp only [leaves] at hv
    split at hv
    · rename_i hc
      obtain ⟨rfl, rfl⟩ := hc
      simp only [List.mem_singleton] at hv
      subst hv
      have hw := in32_inner _ h32 v (by simp [values])
      exact le_best_leaf v hw.1 hw.2
    · rcases List.mem_append.1 hv with hv | hv
      · exact le_trans (hl v hv) cl
      · exact le_trans (hr v hv) cr

/-- Witness for C5 (amended) on the tree with root `5` and right child `3`. -/
theorem getMaxSumBST_ge_leaves_witness :
    ∃ m, getMaxSumBST (.node .nil 5 (leaf 3)) = some m ∧
      ∀ v ∈ leaves (.node .nil 5 (leaf 3)), v ≤ m :=
  getMaxSumBST_ge_leaves (.node .nil 5 (leaf 3)) (by decide)

/-- C6. For every 32-bit `v`, the two-node tree whose root `v` has a single child, a leaf
with the same value `v` (on the left, or on the right), evaluates to `v`: the strict
comparison of line 27 leaves the root unflagged and the leaf's sum `v` is the result. -/
theorem getMaxSumBST_duplicate (v : Int) (h : In32 v) :
    getMaxSumBST (.node (leaf v) v .nil) = some v ∧
      getMaxSumBST (.node .nil v (leaf v)) = some v ∧
      flagOf (.node (leaf v) v .nil) = false ∧ flagOf (.node .nil v (leaf v)) = false := by
  have hv : LLONG_MIN < v ∧ v < LLONG_MAX := by
    unfold In32 at h; simp only [LLONG_MIN, LLONG_MAX]; omega
  have hlf := getMaxSumBST_eq (leaf v)
  have hbl : best (leaf v) = v := by
    obtain ⟨hf, hs⟩ := leaf_components v hv.1 hv.2
    have hb := best_node .nil .nil v
    simp only [leaf] at hf hs
    rw [hf, if_pos rfl, hs] at hb
    simp only [leaf]; rw [hb]
    have : best .nil = LLONG_MIN := rfl
    rw [this]; omega
  have hnil : best .nil = LLONG_MIN := rfl
  have f1 : flagOf (.node (leaf v) v .nil) = false := by
    have c : maxOf (leaf v) ≥ v ∨ minOf .nil ≤ v := by
      left; simp [leaf, maxOf, max3]
    simp only [flagOf]
    rw [if_pos c]
  have f2 : flagOf (.node .nil v (leaf v)) = false := by
    have c : maxOf .nil ≥ v ∨ minOf (leaf v) ≤ v := by
      right; simp [leaf, minOf, min3]
    simp only [flagOf]
    rw [if_pos c]
  refine ⟨?_, ?_, f1, f2⟩
  · rw [getMaxSumBST_eq, best_node, f1, hbl, hnil]
    simp only [Bool.false_eq_true, if_false]
    congr 1; omega
  · rw [getMaxSumBST_eq, best_node, f2, hbl, hnil]
    simp only [Bool.false_eq_true, if_false]
    congr 1; omega

/-- Witness for C6: root `5` with a child `5` evaluates to `5`. -/
theorem getMaxSumBST_duplicate_witness :
    getMaxSumBST (.node (leaf 5) 5 .nil) = some 5 ∧
      getMaxSumBST (.node .nil 5 (leaf 5)) = some 5 ∧
      flagOf (.node (leaf 5) 5 .nil) = false ∧ flagOf (.node .nil 5 (leaf 5)) = false :=
  getMaxSumBST_duplicate 5 (by decide)

/-! ## Monotonicity under containment -/

theorem best_subtree_le (t s : Tree) (hs : s ∈ subtrees t) : best s ≤ best t := by
  induction t with
  | nil => simp [subtrees] at hs
  | node l v r ihl ihr =>
    obtain ⟨cl, cr⟩ := best_ge_children l r v
    simp only [subtrees, List.mem_cons, List.mem_append] at hs
    rcases hs with rfl | hs | hs
    · exact le_refl _
    · exact le_trans (ihl hs) cl
    · exact le_trans (ihr hs) cr

/-- C7. For every tree `t` and every subtree `s` of `t` (a node of `t` with all its
descendants), both evaluations return and `getMaxSumBST t ≥ getMaxSumBST s`; the bounds on
values and node count are not needed. -/
theorem getMaxSumBST_mono (t s : Tree) (hs : s ∈ subtrees t) :
    ∃ a b, getMaxSumBST t = some a ∧ getMaxSumBST s = some b ∧ b ≤ a :=
  ⟨best t, best s, getMaxSumBST_eq t, getMaxSumBST_eq s, best_subtree_le t s hs⟩

/-- Witness for C7: the subtree `3(2,5)` inside `1(4(2,4),3(2,5))`. -/
theorem getMaxSumBST_mono_witness :
    ∃ a b, getMaxSumBST (.node (.node (leaf 2) 4 (leaf 4)) 1 (.node (leaf 2) 3 (leaf 5))) = some a ∧
      getMaxSumBST (.node (leaf 2) 3 (leaf 5)) = some b ∧ b ≤ a :=
  getMaxSumBST_mono _ _ (by decide)


/-! ## Concrete scenarios through the builder -/

/-- C8 (counterexample). The array of scenario A builds the tree `1(4(2,4),3(2,5))`, whose
subtree `3(2,5)` is a strict BST of sum `10`; the evaluation does not give `2`. -/
theorem scenarioA_ne_two :
    run [1, 4, 3, 2, 4, 2, 5, -1, -1, -1, -1, -1, -1, -1, -1] ≠ some 2 ∧
      isBST (.node (leaf 2) 3 (leaf 5)) = true ∧ total (.node (leaf 2) 3 (leaf 5)) = 10 := by
  decide

/-- C8 (amended). Scenario A: `getBinaryTree` on
`[1,4,3,2,4,2,5,-1,-1,-1,-1,-1,-1,-1,-1]` returns the tree `1(4(2,4),3(2,5))` and
`getMaxSumBST` of that tree is `10`. -/
theorem scenarioA :
    getBinaryTree [1, 4, 3, 2, 4, 2, 5, -1, -1, -1, -1, -1, -1, -1, -1] =
        some (.node (.node (leaf 2) 4 (leaf 4)) 1 (.node (leaf 2) 3 (leaf 5))) ∧
      getMaxSumBST (.node (.node (leaf 2) 4 (leaf 4)) 1 (.node (leaf 2) 3 (leaf 5))) = some 10 ∧
      run [1, 4, 3, 2, 4, 2, 5, -1, -1, -1, -1, -1, -1, -1, -1] = some 10 := by
  decide

/-- C9. Scenario B: `getBinaryTree` on `[-4,-2,-5]` returns the tree with root `-4`, left
`-2`, right `-5`; it is not a strict BST and `getMaxSumBST` of it is `-2`. -/
theorem scenarioB :
    getBinaryTree [-4, -2, -5] = some (.node (leaf (-2)) (-4) (leaf (-5))) ∧
      isBST (.node (leaf (-2)) (-4) (leaf (-5))) = false ∧
      getMaxSumBST (.node (leaf (-2)) (-4) (leaf (-5))) = some (-2) ∧
      run [-4, -2, -5] = some (-2) := by
  decide

/-- C10. Scenario C: `getBinaryTree` on `[2,1,3]` returns the tree with root `2`, left `1`,
right `3`; it is a strict BST of total `6` and `getMaxSumBST` of it is `6`. -/
theorem scenarioC :
    getBinaryTree [2, 1, 3] = some (.node (leaf 1) 2 (leaf 3)) ∧
      isBST (.node (leaf 1) 2 (leaf 3)) = true ∧
      total (.node (leaf 1) 2 (leaf 3)) = 6 ∧
      getMaxSumBST (.node (leaf 1) 2 (leaf 3)) = some 6 ∧
      run [2, 1, 3] = some 6 := by
  decide


/-! ## Totality, flag, components, leaves, monotone accumulator -/

/-- C11. `f` and `getMaxSumBST` are total: on every tree (the empty one included) and every
initial `ans`, `f` returns a vector of exactly four components and never reaches the
out-of-bounds branch, and `getMaxSumBST` returns a value. The recursion of `f` is structural
on the tree. -/
theorem f_total (t : Tree) (a : Int) :
    (∃ vec ans2, f t a = some (vec, ans2) ∧ vec.length = 4) ∧
      (∃ m, getMaxSumBST t = some m) ∧
      (∀ s ∈ subtrees t, ∀ b, ∃ vec ans2, f s b = some (vec, ans2) ∧ vec.length = 4) :=
  ⟨⟨_, _, f_eq t a, rfl⟩, ⟨_, getMaxSumBST_eq t⟩, fun s _ b => ⟨_, _, f_eq s b, rfl⟩⟩

/-- C12. For a tree whose values lie strictly between `LLONG_MIN` and `LLONG_MAX`, the third
component returned by `f` is non-zero (true) exactly when the tree satisfies the strict BST
property of the glossary; the empty tree counts as valid. -/
theorem f_flag_iff_isBST (t : Tree) (a : Int)
    (h : ∀ x ∈ values t, LLONG_MIN < x ∧ x < LLONG_MAX) :
    ∃ mn mx fl sm ans2, f t a = some ([mn, mx, fl, sm], ans2) ∧
      (fl ≠ 0 ↔ isBST t = true) ∧ (fl = 1 ∨ fl = 0) := by
  refine ⟨_, _, _, _, _, f_eq t a, ?_, ?_⟩
  · rw [flagOf_eq_isBST t h]
    cases isBST t <;> simp [boolToLL]
  · cases flagOf t <;> simp [boolToLL]

/-- Witness for C12 on the non-BST `-4(-2,-5)` and its flag `0`. -/
theorem f_flag_iff_isBST_witness :
    ∃ mn mx fl sm ans2,
      f (.node (leaf (-2)) (-4) (leaf (-5))) 0 = some ([mn, mx, fl, sm], ans2) ∧
      (fl ≠ 0 ↔ isBST (.node (leaf (-2)) (-4) (leaf (-5))) = true) ∧ (fl = 1 ∨ fl = 0) :=
  f_flag_iff_isBST (.node (leaf (-2)) (-4) (leaf (-5))) 0 (by decide)


theorem minOf_le (t : Tree) : ∀ x ∈ values t, minOf t ≤ x := by
  induction t with
  | nil => simp [values]
  | node l v r ihl ihr =>
    intro x hx
    simp only [values, List.mem_append, List.mem_cons] at hx
    simp only [minOf, min3]
    rcases hx with hx | rfl | hx
    · have := ihl x hx; omega
    · omega
    · have := ihr x hx; omega

theorem le_maxOf (t : Tree) : ∀ x ∈ values t, x ≤ maxOf t := by
  induction t with
  | nil => simp [values]
  | node l v r ihl ihr =>
    intro x hx
    simp only [values, List.mem_append, List.mem_cons] at hx
    simp only [maxOf, max3]
    rcases hx with hx | rfl | hx
    · have := ihl x hx; omega
    · omega
    · have := ihr x hx; omega

theorem minOf_mem (t : Tree) : minOf t = LLONG_MAX ∨ minOf t ∈ values t := by
  induction t with
  | nil => left; rfl
  | node l v r ihl ihr =>
    simp only [minOf, min3, values, List.mem_append, List.mem_cons]
    rcases le_total v (min (minOf l) (minOf r)) with c | c
    · rw [min_eq_left c]; right; right; left; rfl
    · rw [min_eq_right c]
      rcases le_total (minOf l) (minOf r) with d | d
      · rw [min_eq_left d]
        rcases ihl with e | e
        · left; exact e
        · right; left; exact e
      · rw [min_eq_right d]
        rcases ihr with e | e
        · left; exact e
        · right; right; right; exact e

theorem maxOf_mem (t : Tree) : maxOf t = LLONG_MIN ∨ maxOf t ∈ values t := by
  induction t with
  | nil => left; rfl
  | node l v r ihl ihr =>
    simp only [maxOf, max3, values, List.mem_append, List.mem_cons]
    rcases le_total v (max (maxOf l) (maxOf r)) with c | c
    · rw [max_eq_right c]
      rcases le_total (maxOf l) (maxOf r) with d | d
      · rw [max_eq_right d]
        rcases ihr with e | e
        · left; exact e
        · right; right; right; exact e
      · rw [max_eq_left d]
        rcases ihl with e | e
        · left; exact e
        · right; left; exact e
    · rw [max_eq_left c]; right; right; left; rfl

theorem root_mem_values (t : Tree) (hne : t ≠ .nil) : ∃ v, v ∈ values t := by
  cases t with
  | nil => exact absurd rfl hne
  | node l v r => exact ⟨v, by simp [values]⟩

/-- C13. For a tree with 32-bit values and fewer than `2^31` nodes, whether or not it is a
BST, `f` returns as fourth component the sum of all node values and, when the tree is
non-empty, as first and second components the minimum and the maximum of the node values;
on the empty tree it returns `(LLONG_MAX, LLONG_MIN, true, 0)`. -/
theorem f_components (t : Tree) (a : Int) (h32 : ∀ x ∈ values t, In32 x)
    (hsz : size t < 2147483648) :
    ∃ mn mx fl sm ans2, f t a = some ([mn, mx, fl, sm], ans2) ∧ sm = total t ∧
      (t ≠ .nil → (mn ∈ values t ∧ ∀ x ∈ values t, mn ≤ x) ∧
        (mx ∈ values t ∧ ∀ x ∈ values t, x ≤ mx)) ∧
      (t = .nil → mn = LLONG_MAX ∧ mx = LLONG_MIN ∧ fl = 1 ∧ sm = 0) := by
  refine ⟨_, _, _, _, _, f_eq t a, sumOf_eq_total t h32 hsz, ?_, ?_⟩
  · intro hne
    obtain ⟨v, hv⟩ := root_mem_values t hne
    have hin := in32_inner t h32 v hv
    refine ⟨⟨?_, minOf_le t⟩, ⟨?_, le_maxOf t⟩⟩
    · rcases minOf_mem t with e | e
      · have := minOf_le t v hv; omega
      · exact e
    · rcases maxOf_mem t with e | e
      · have := le_maxOf t v hv; omega
      · exact e
  · rintro rfl
    exact ⟨rfl, rfl, rfl, rfl⟩

/-- Witness for C13 on the non-BST `1(4(2,4),3(2,5))`: minimum `1`, maximum `5`, sum `21`. -/
theorem f_components_witness :
    ∃ fl ans2, f (.node (.node (leaf 2) 4 (leaf 4)) 1 (.node (leaf 2) 3 (leaf 5))) 0 =
      some ([1, 5, fl, 21], ans2) := by
  obtain ⟨mn, mx, fl, sm, ans2, h1, h2, h3, -⟩ :=
    f_components (.node (.node (leaf 2) 4 (leaf 4)) 1 (.node (leaf 2) 3 (leaf 5))) 0
      (by decide) (by decide)
  obtain ⟨⟨m1, m2⟩, ⟨m3, m4⟩⟩ := h3 (by decide)
  have e1 : mn = 1 := by
    have := m2 1 (by decide)
    simp [values, leaf] at m1
    omega
  have e2 : mx = 5 := by
    have := m4 5 (by decide)
    simp [values, leaf] at m3
    omega
  have e3 : sm = 21 := by rw [h2]; decide
  subst e1 e2 e3
  exact ⟨fl, ans2, h1⟩

theorem le_best_of_leaves (t : Tree) (h : ∀ x ∈ values t, LLONG_MIN < x ∧ x < LLONG_MAX) :
    ∀ v ∈ leaves t, v ≤ best t := by
  induction t with
  | nil => simp [leaves]
  | node l w r ihl ihr =>
    have hl := ihl (fun x hx => h x (by simp [values, hx]))
    have hr := ihr (fun x hx => h x (by simp [values, hx]))
    obtain ⟨cl, cr⟩ := best_ge_children l r w
    intro v hv
    simp only [leaves] at hv
    split at hv
    · rename_i hc
      obtain ⟨rfl, rfl⟩ := hc
      simp only [List.mem_singleton] at hv
      subst hv
      have hw := h v (by simp [values])
      exact le_best_leaf v hw.1 hw.2
    · rcases List.mem_append.1 hv with hv | hv
      · exact le_trans (hl v hv) cl
      · exact le_trans (hr v hv) cr

theorem leaves_subset_values (t : Tree) : ∀ v ∈ leaves t, v ∈ values t := by
  induction t with
  | nil => simp [leaves]
  | node l w r ihl ihr =>
    intro v hv
    simp only [leaves] at hv
    split at hv
    · simp only [List.mem_singleton] at hv; subst hv; simp [values]
    · rcases List.mem_append.1 hv with hv | hv
      · simp [values, ihl v hv]
      · simp [values, ihr v hv]

/-- C14. For a tree whose values lie strictly between `LLONG_MIN` and `LLONG_MAX`, every leaf
evaluated by `f` is flagged (third component `1`) with fourth component its own value, and
`getMaxSumBST` of the tree is greater than or equal to the value of every leaf. -/
theorem getMaxSumBST_ge_every_leaf (t : Tree)
    (h : ∀ x ∈ values t, LLONG_MIN < x ∧ x < LLONG_MAX) :
    (∀ v ∈ leaves t, ∀ a, ∃ mn mx ans2, f (leaf v) a = some ([mn, mx, 1, v], ans2)) ∧
      ∃ m, getMaxSumBST t = some m ∧ ∀ v ∈ leaves t, v ≤ m := by
  refine ⟨?_, best t, getMaxSumBST_eq t, le_best_of_leaves t h⟩
  intro v hv a
  have hw := h v (leaves_subset_values t v hv)
  obtain ⟨hf, hs⟩ := leaf_components v hw.1 hw.2
  refine ⟨minOf (leaf v), maxOf (leaf v), ansOf (leaf v) a, ?_⟩
  have := f_eq (leaf v) a
  rw [hf, hs] at this
  exact this

/-- Witness for C14 on the tree `-4(-2,-5)`. -/
theorem getMaxSumBST_ge_every_leaf_witness :
    (∀ v ∈ leaves (.node (leaf (-2)) (-4) (leaf (-5))), ∀ a,
        ∃ mn mx ans2, f (leaf v) a = some ([mn, mx, 1, v], ans2)) ∧
      ∃ m, getMaxSumBST (.node (leaf (-2)) (-4) (leaf (-5))) = some m ∧
        ∀ v ∈ leaves (.node (leaf (-2)) (-4) (leaf (-5))), v ≤ m :=
  getMaxSumBST_ge_every_leaf (.node (leaf (-2)) (-4) (leaf (-5))) (by decide)

/-- C15. The running best never decreases: after `f(t, a)` the value of `ans` is at least `a`,
for every tree and every `a`; inside a call on a node the same holds step by step, across the
call on the left child, the call on the right child and the final update. -/
theorem f_ans_monotone (t : Tree) (a : Int) :
    (∃ vec ans2, f t a = some (vec, ans2) ∧ a ≤ ans2) ∧
      (∀ l v r, t = .node l v r → ∃ vl a1 vr a2 vt a3,
        f l a = some (vl, a1) ∧ f r a1 = some (vr, a2) ∧ f t a = some (vt, a3) ∧
        a ≤ a1 ∧ a1 ≤ a2 ∧ a2 ≤ a3) ∧
      (∀ s ∈ subtrees t, ∀ b, ∃ vec b2, f s b = some (vec, b2) ∧ b ≤ b2) := by
  refine ⟨⟨_, _, f_eq t a, le_ansOf t a⟩, ?_, fun s _ b => ⟨_, _, f_eq s b, le_ansOf s b⟩⟩
  rintro l v r rfl
  refine ⟨_, _, _, _, _, _, f_eq l a, f_eq r _, f_eq _ a, le_ansOf l a, le_ansOf r _, ?_⟩
  simp only [ansOf]
  split
  · exact le_max_left _ _
  · exact le_refl _


/-! ## Accumulator threading -/

theorem pureFold_eq (t : Tree) :
    pureFold t = ((minOf t, maxOf t, flagOf t, sumOf t), best t) := by
  induction t with
  | nil => rfl
  | node l v r ihl ihr =>
    have hb := best_node l r v
    simp only [pureFold, ihl, ihr]
    have hfl : (flagOf l && flagOf r && !(decide (maxOf l ≥ v) || decide (minOf r ≤ v)))
        = flagOf (.node l v r) := by
      simp only [flagOf]
      by_cases c : maxOf l ≥ v ∨ minOf r ≤ v
      · rw [if_pos c]
        rcases c with c | c <;> simp [c]
      · rw [if_neg c]
        have c1 : ¬ maxOf l ≥ v := fun h => c (Or.inl h)
        have c2 : ¬ minOf r ≤ v := fun h => c (Or.inr h)
        simp [c1, c2]
    rw [hfl, hb]
    simp only [minOf, maxOf, sumOf]

/-- C19. For every tree and every 64-bit initial value `a` of `ans`, the vector returned by
`f(t, ans)` is the same for every initial value, the value of `ans` after the call is
`max(a, getMaxSumBST(t))`, and both the vector and `getMaxSumBST(t)` are what the pure fold
`pureFold` returns. -/
theorem f_threading (t : Tree) (a : Int) (ha : LLONG_MIN ≤ a) :
    ∃ mn mx fl sm m, pureFold t = ((mn, mx, fl, sm), m) ∧ getMaxSumBST t = some m ∧
      f t a = some ([mn, mx, boolToLL fl, sm], max a m) ∧
      ∀ b, ∃ b2, f t b = some ([mn, mx, boolToLL fl, sm], b2) := by
  refine ⟨_, _, _, _, _, pureFold_eq t, getMaxSumBST_eq t, ?_, fun b => ⟨_, f_eq t b⟩⟩
  rw [f_eq, ansOf_eq t a ha]

/-- Witness for C19 on the tree `2(1,3)` started from `ans = 7`. -/
theorem f_threading_witness :
    ∃ mn mx fl sm m, pureFold (.node (leaf 1) 2 (leaf 3)) = ((mn, mx, fl, sm), m) ∧
      getMaxSumBST (.node (leaf 1) 2 (leaf 3)) = some m ∧
      f (.node (leaf 1) 2 (leaf 3)) 7 = some ([mn, mx, boolToLL fl, sm], max 7 m) ∧
      ∀ b, ∃ b2, f (.node (leaf 1) 2 (leaf 3)) b = some ([mn, mx, boolToLL fl, sm], b2) :=
  f_threading (.node (leaf 1) 2 (leaf 3)) 7 (by decide)

/-! ## No overflow on 32-bit trees -/

theorem fInt_eq_f (t : Tree) (a : Int) (h32 : ∀ x ∈ values t, In32 x)
    (hsz : size t < 2147483648) : fInt t a = f t a := by
  induction t generalizing a with
  | nil => rfl
  | node l v r ihl ihr =>
    have h32l : ∀ x ∈ values l, In32 x := fun x hx => h32 x (by simp [values, hx])
    have h32r : ∀ x ∈ values r, In32 x := fun x hx => h32 x (by simp [values, hx])
    have hs := hsz
    simp only [size] at hs
    have el := sumOf_eq_total l h32l (by omega)
    have er := sumOf_eq_total r h32r (by omega)
    have en := sumOf_eq_total _ h32 hsz
    simp only [sumOf, total, el, er] at en
    simp only [fInt, f, ihl _ h32l (by omega), ihr _ h32r (by omega), f_eq]
    cases hl : flagOf l <;> cases hr : flagOf r <;>
      by_cases h1 : v ≤ maxOf l <;> by_cases h2 : minOf r ≤ v <;>
      simp [boolToLL, hl, hr, h1, h2, el, er, en]

theorem total_abs_lt (t : Tree) (h32 : ∀ x ∈ values t, In32 x) (hsz : size t < 2147483648) :
    -4611686018427387904 < total t ∧ total t < 4611686018427387904 := by
  have := total_bounds t h32
  omega

/-- C16. On a tree with 32-bit values and fewer than `2^31` nodes: at every node the sum
`lt[3] + rt[3] + root->val` of line 24 (and its partial sum `lt[3] + rt[3]`) has absolute
value below `2^62`, no node value equals `LLONG_MIN` or `LLONG_MAX`, and `f` and
`getMaxSumBST` return what the same computation returns over the unbounded integers. -/
theorem f_no_overflow (t : Tree) (h32 : ∀ x ∈ values t, In32 x) (hsz : size t < 2147483648) :
    (∀ l v r, Tree.node l v r ∈ subtrees t → ∀ a, ∃ vl a1 vr a2 s1 s2,
        f l a = some (vl, a1) ∧ f r a1 = some (vr, a2) ∧ vl[3]? = some s1 ∧ vr[3]? = some s2 ∧
        (-4611686018427387904 < s1 + s2 ∧ s1 + s2 < 4611686018427387904) ∧
        (-4611686018427387904 < s1 + s2 + v ∧ s1 + s2 + v < 4611686018427387904)) ∧
      (∀ x ∈ values t, x ≠ LLONG_MIN ∧ x ≠ LLONG_MAX) ∧
      (∀ a, f t a = fInt t a) ∧ getMaxSumBST t = getMaxSumBSTInt t := by
  refine ⟨?_, ?_, fun a => (fInt_eq_f t a h32 hsz).symm, ?_⟩
  · intro l v r hs a
    have hv32 : ∀ x ∈ values (Tree.node l v r), In32 x :=
      fun x hx => h32 x (subtrees_values t _ hs x hx)
    have hss := subtrees_size t _ hs
    have h32l : ∀ x ∈ values l, In32 x := fun x hx => hv32 x (by simp [values, hx])
    have h32r : ∀ x ∈ values r, In32 x := fun x hx => hv32 x (by simp [values, hx])
    have hv : In32 v := hv32 v (by simp [values])
    simp only [size] at hss
    have el := sumOf_eq_total l h32l (by omega)
    have er := sumOf_eq_total r h32r (by omega)
    have bl := total_bounds l h32l
    have br := total_bounds r h32r
    unfold In32 at hv
    refine ⟨_, _, _, _, sumOf l, sumOf r, f_eq l a, f_eq r _, rfl, rfl, ?_, ?_⟩
    · rw [el, er]; omega
    · rw [el, er]; omega
  · intro x hx
    have := in32_inner t h32 x hx
    omega
  · simp only [getMaxSumBST, getMaxSumBSTInt, fInt_eq_f t _ h32 hsz]

/-- Witness for C16 on the tree `1(4(2,4),3(2,5))`: the two evaluations agree. -/
theorem f_no_overflow_witness :
    getMaxSumBST (.node (.node (leaf 2) 4 (leaf 4)) 1 (.node (leaf 2) 3 (leaf 5))) =
      getMaxSumBSTInt (.node (.node (leaf 2) 4 (leaf 4)) 1 (.node (leaf 2) 3 (leaf 5))) :=
  (f_no_overflow (.node (.node (leaf 2) 4 (leaf 4)) 1 (.node (leaf 2) 3 (leaf 5)))
    (by decide) (by decide)).2.2.2


/-! ## The heap left by the builder -/

theorem kids_append (A B : List Node) : kids (A ++ B) = kids A ++ kids B := by
  induction A with
  | nil => rfl
  | cons n A ih => simp [kids, ih]

theorem kids_childless (U : List Node) (h : ∀ u ∈ U, u.left = none ∧ u.right = none) :
    kids U = [] := by
  induction U with
  | nil => rfl
  | cons n U ih =>
    have hn := h n (by simp)
    simp [kids, ptrs, hn.1, hn.2, ih (fun u hu => h u (by simp [hu]))]

theorem range_split (s m : Nat) (A B : List Nat) (h : List.range' s m = A ++ B) :
    A = List.range' s A.length ∧ B = List.range' (s + A.length) B.length := by
  have hl : m = A.length + B.length := by
    have := congrArg List.length h
    simpa using this
  subst hl
  have h2 : List.range' s (A.length + B.length) =
      List.range' s A.length ++ List.range' (s + A.length) B.length := by
    rw [List.range'_append_1, Nat.add_comm]
  rw [h2] at h
  have := List.append_inj h (by simp)
  exact ⟨this.1.symm, this.2.symm⟩

theorem goodHeap_cell (H : List Node) (hg : GoodHeap H) (i : Nat) (nd : Node)
    (hi : H[i]? = some nd) :
    kids (H.take (i + 1)) = kids (H.take i) ++ ptrs nd ∧
      ptrs nd = List.range' (1 + (kids (H.take i)).length) (ptrs nd).length ∧
      kids (H.take i) = List.range' 1 (kids (H.take i)).length := by
  have hlt : i < H.length := by
    rcases Nat.lt_or_ge i H.length with h | h
    · exact h
    · rw [List.getElem?_eq_none h] at hi; cases hi
  have hsplit : H = H.take i ++ nd :: H.drop (i + 1) := by
    have h1 : H.drop i = nd :: H.drop (i + 1) := by
      rw [List.drop_eq_getElem_cons hlt]
      congr 1
      rw [List.getElem?_eq_getElem hlt] at hi
      exact Option.some.inj hi
    conv_lhs => rw [← List.take_append_drop i H, h1]
  have ht : H.take (i + 1) = H.take i ++ [nd] := by
    rw [List.take_succ, hi]; rfl
  have hk : kids H = kids (H.take i) ++ (ptrs nd ++ kids (H.drop (i + 1))) := by
    conv_lhs => rw [hsplit]
    rw [kids_append]; rfl
  have h1 := hg.2.1
  rw [hk] at h1
  obtain ⟨e1, e2⟩ := range_split _ _ _ _ h1.symm
  obtain ⟨e3, -⟩ := range_split _ _ _ _ e2.symm
  refine ⟨?_, e3, e1⟩
  rw [ht, kids_append]
  simp [kids]

theorem goodHeap_ptr_bounds (H : List Node) (hg : GoodHeap H) (i : Nat) (nd : Node)
    (hi : H[i]? = some nd) (p : Nat) (hp : p ∈ ptrs nd) : i < p ∧ p < H.length := by
  have hlt : i < H.length := by
    rcases Nat.lt_or_ge i H.length with h | h
    · exact h
    · rw [List.getElem?_eq_none h] at hi; cases hi
  obtain ⟨e1, e2, e3⟩ := goodHeap_cell H hg i nd hi
  have hf := hg.2.2 i hlt
  have hp2 := hp
  rw [e2, List.mem_range'_1] at hp2
  constructor
  · omega
  · have hmem : p ∈ kids (H.take (i + 1)) := by rw [e1]; simp [hp]
    have hsub : p ∈ kids H := by
      have : kids H = kids (H.take (i + 1)) ++ kids (H.drop (i + 1)) := by
        rw [← kids_append, List.take_append_drop]
      rw [this]; simp [hmem]
    rw [hg.2.1, List.mem_range'_1] at hsub
    omega

theorem readTree_none (H : List Node) (fuel : Nat) : readTree H fuel none = some .nil := by
  cases fuel <;> rfl

theorem readTree_mono (H : List Node) (fuel : Nat) (p : Option Nat) (t : Tree)
    (h : readTree H fuel p = some t) : readTree H (fuel + 1) p = some t := by
  induction fuel generalizing p t with
  | zero =>
    cases p with
    | none => rw [readTree_none] at h ⊢; exact h
    | some q => simp [readTree] at h
  | succ k ih =>
    cases p with
    | none => rw [readTree_none] at h ⊢; exact h
    | some q =>
      rw [readTree] at h ⊢
      cases hq : H[q]? with
      | none => rw [hq] at h; cases h
      | some nd =>
        rw [hq] at h
        simp only at h ⊢
        cases hl : readTree H k nd.left with
        | none => rw [hl] at h; cases h
        | some l =>
          cases hr : readTree H k nd.right with
          | none => rw [hl, hr] at h; cases h
          | some r =>
            rw [hl, hr] at h
            rw [ih _ _ hl, ih _ _ hr]
            exact h

theorem readTree_mono_le (H : List Node) (f1 f2 : Nat) (p : Option Nat) (t : Tree)
    (hle : f1 ≤ f2) (h : readTree H f1 p = some t) : readTree H f2 p = some t := by
  induction hle with
  | refl => exact h
  | step _ ih => exact readTree_mono H _ p t ih

theorem mem_ptrs_left (nd : Node) (p : Nat) (h : nd.left = some p) : p ∈ ptrs nd := by
  simp [ptrs, h]

theorem mem_ptrs_right (nd : Node) (p : Nat) (h : nd.right = some p) : p ∈ ptrs nd := by
  simp [ptrs, h]

theorem readTree_some (H : List Node) (hg : GoodHeap H) (fuel : Nat) :
    ∀ p, p < H.length → H.length - p ≤ fuel → ∃ t, readTree H fuel (some p) = some t := by
  induction fuel with
  | zero => intro p h1 h2; omega
  | succ k ih =>
    intro p h1 h2
    have hp : H[p]? = some H[p] := List.getElem?_eq_getElem h1
    have child : ∀ o : Option Nat, (∀ q, o = some q → q ∈ ptrs H[p]) →
        ∃ t, readTree H k o = some t := by
      intro o ho
      cases o with
      | none => exact ⟨_, readTree_none H k⟩
      | some q =>
        obtain ⟨b1, b2⟩ := goodHeap_ptr_bounds H hg p _ hp q (ho q rfl)
        exact ih q b2 (by omega)
    obtain ⟨l, hl⟩ := child H[p].left (fun q hq => mem_ptrs_left _ q hq)
    obtain ⟨r, hr⟩ := child H[p].right (fun q hq => mem_ptrs_right _ q hq)
    refine ⟨.node l H[p].val r, ?_⟩
    rw [readTree, hp]
    simp only [hl, hr]

theorem readTree_optTree (H : List Node) (hg : GoodHeap H) (i : Nat) (nd : Node)
    (hi : H[i]? = some nd) (k : Nat) (hk : H.length ≤ k + (i + 1)) (hkn : k ≤ H.length)
    (o : Option Nat) (ho : ∀ q, o = some q → q ∈ ptrs nd) :
    readTree H k o = some (optTree H o) := by
  cases o with
  | none => exact readTree_none H k
  | some q =>
    obtain ⟨b1, b2⟩ := goodHeap_ptr_bounds H hg i nd hi q (ho q rfl)
    obtain ⟨t, ht⟩ := readTree_some H hg k q b2 (by omega)
    have := readTree_mono_le H k H.length (some q) t hkn ht
    simp only [optTree, treeAt, this, Option.getD_some]
    exact ht

theorem treeAt_eq (H : List Node) (hg : GoodHeap H) (i : Nat) (nd : Node)
    (hi : H[i]? = some nd) :
    treeAt H i = .node (optTree H nd.left) nd.val (optTree H nd.right) := by
  have hlt : i < H.length := by
    rcases Nat.lt_or_ge i H.length with h | h
    · exact h
    · rw [List.getElem?_eq_none h] at hi; cases hi
  obtain ⟨k, hk⟩ : ∃ k, H.length = k + 1 := ⟨H.length - 1, by omega⟩
  have hl := readTree_optTree H hg i nd hi k (by omega) (by omega) nd.left
    (fun q hq => mem_ptrs_left _ q hq)
  have hr := readTree_optTree H hg i nd hi k (by omega) (by omega) nd.right
    (fun q hq => mem_ptrs_right _ q hq)
  unfold treeAt
  rw [hk, readTree, hi]
  simp only [hl, hr, Option.getD_some]

theorem treeAt_ne_nil (H : List Node) (hg : GoodHeap H) (i : Nat) (hi : i < H.length) :
    treeAt H i ≠ .nil := by
  rw [treeAt_eq H hg i _ (List.getElem?_eq_getElem hi)]
  exact fun h => Tree.noConfusion h

theorem children_eq (H : List Node) (hg : GoodHeap H) (i : Nat) (nd : Node)
    (hi : H[i]? = some nd) :
    ((if optTree H nd.left = .nil then [] else [optTree H nd.left]) ++
      (if optTree H nd.right = .nil then [] else [optTree H nd.right])) =
      (ptrs nd).map (treeAt H) := by
  have side : ∀ o : Option Nat, (∀ q, o = some q → q ∈ ptrs nd) →
      (if optTree H o = .nil then [] else [optTree H o]) = o.toList.map (treeAt H) := by
    intro o ho
    cases o with
    | none => simp [optTree]
    | some q =>
      obtain ⟨-, b2⟩ := goodHeap_ptr_bounds H hg i nd hi q (ho q rfl)
      have := treeAt_ne_nil H hg q b2
      simp [optTree, this]
  rw [side nd.left (fun q hq => mem_ptrs_left _ q hq),
    side nd.right (fun q hq => mem_ptrs_right _ q hq)]
  simp [ptrs]

theorem bfs_heap (H : List Node) (hg : GoodHeap H) (fuel : Nat) :
    ∀ i, i ≤ H.length → H.length - i ≤ fuel →
      bfs fuel ((List.range' i ((kids (H.take i)).length + 1 - i)).map (treeAt H)) =
        (H.drop i).map Node.val := by
  have hpos : 0 < H.length := List.length_pos.2 hg.1
  have hfull : ((kids (H.take H.length)).length + 1 - H.length) = 0 := by
    rw [List.take_length, hg.2.1, List.length_range']; omega
  induction fuel with
  | zero =>
    intro i h1 h2
    have : i = H.length := by omega
    subst this
    simp [bfs]
  | succ k ih =>
    intro i h1 h2
    rcases Nat.eq_or_lt_of_le h1 with e | hlt
    · subst e
      rw [hfull]
      simp [bfs]
    · have hi : H[i]? = some H[i] := List.getElem?_eq_getElem hlt
      obtain ⟨e1, e2, -⟩ := goodHeap_cell H hg i _ hi
      have hf := hg.2.2 i hlt
      have hq : List.range' i ((kids (H.take i)).length + 1 - i) =
          i :: List.range' (i + 1) ((kids (H.take i)).length - i) := by
        have : (kids (H.take i)).length + 1 - i = ((kids (H.take i)).length - i) + 1 := by omega
        rw [this, List.range'_succ]
      have hnext : List.range' (i + 1) ((kids (H.take (i + 1))).length + 1 - (i + 1)) =
          List.range' (i + 1) ((kids (H.take i)).length - i) ++ ptrs H[i] := by
        conv_rhs => rw [e2]
        have : 1 + (kids (H.take i)).length = (i + 1) + ((kids (H.take i)).length - i) := by
          omega
        rw [this, List.range'_append_1, e1, List.length_append]
        congr 1
        omega
      have hd : H.drop i = H[i] :: H.drop (i + 1) := List.drop_eq_getElem_cons hlt
      rw [hq, List.map_cons, treeAt_eq H hg i _ hi, bfs, children_eq H hg i _ hi,
        ← List.map_append, ← hnext, ih (i + 1) hlt (by omega), hd, List.map_cons]

theorem bfs_heap_root (H : List Node) (hg : GoodHeap H) (fuel : Nat) (hf : H.length ≤ fuel) :
    bfs fuel [treeAt H 0] = H.map Node.val := by
  have := bfs_heap H hg fuel 0 (Nat.zero_le _) (by omega)
  simpa [kids] using this

theorem bfs_length (fuel : Nat) : ∀ q : List Tree, (∀ t ∈ q, t ≠ .nil) →
    (q.map size).sum ≤ fuel → (bfs fuel q).length = (q.map size).sum := by
  induction fuel with
  | zero =>
    intro q hq hs
    simp only [bfs, List.length_nil]
    omega
  | succ k ih =>
    intro q hq hs
    cases q with
    | nil => simp [bfs]
    | cons t q =>
      cases t with
      | nil => exact absurd rfl (hq .nil (by simp))
      | node l v r =>
        simp only [List.map_cons, List.sum_cons, size] at hs ⊢
        rw [bfs, List.length_cons]
        have hsz : ((q ++ ((if l = .nil then [] else [l]) ++
            (if r = .nil then [] else [r]))).map size).sum
            = (q.map size).sum + size l + size r := by
          by_cases cl : l = .nil <;> by_cases cr : r = .nil <;>
            simp [cl, cr, size, Nat.add_assoc]
        have hne : ∀ t ∈ (q ++ ((if l = .nil then [] else [l]) ++
            (if r = .nil then [] else [r]))), t ≠ .nil := by
          intro t ht
          rw [List.mem_append, List.mem_append] at ht
          rcases ht with ht | ht | ht
          · exact hq t (by simp [ht])
          · by_cases cl : l = .nil
            · simp [cl] at ht
            · simp [cl] at ht; rw [ht]; exact cl
          · by_cases cr : r = .nil
            · simp [cr] at ht
            · simp [cr] at ht; rw [ht]; exact cr
        rw [ih _ hne (by rw [hsz]; omega), hsz]
        omega

theorem goodHeap_levelOrder (H : List Node) (hg : GoodHeap H) :
    readTree H H.length (some 0) = some (treeAt H 0) ∧
      levelOrder (treeAt H 0) = H.map Node.val ∧ size (treeAt H 0) = H.length := by
  have hpos : 0 < H.length := List.length_pos.2 hg.1
  obtain ⟨t, ht⟩ := readTree_some H hg H.length 0 hpos (by omega)
  have et : treeAt H 0 = t := by simp [treeAt, ht]
  have hne := treeAt_ne_nil H hg 0 hpos
  have hsz : size (treeAt H 0) = H.length := by
    have h1 := bfs_heap_root H hg (max H.length (size (treeAt H 0))) (le_max_left _ _)
    have h2 := bfs_length (max H.length (size (treeAt H 0))) [treeAt H 0]
      (by intro t ht; simp at ht; rw [ht]; exact hne) (by simp)
    rw [h1] at h2
    simpa using h2.symm
  refine ⟨by rw [ht, et], ?_, hsz⟩
  unfold levelOrder
  rw [hsz]
  exact bfs_heap_root H hg _ (le_refl _)

/-! ## One iteration of the builder -/

theorem get_mid (P U : List Node) (u : Node) : (P ++ u :: U)[P.length]? = some u := by
  rw [List.getElem?_append_right (le_refl _)]
  simp

theorem set_mid (P U : List Node) (u w : Node) : (P ++ u :: U).set P.length w = P ++ w :: U := by
  simp

theorem loopBody_run (arr : List Int) (P U : List Node) (u : Node) (q : List Nat) (idx : Nat)
    (x y : Int) (hx : arr[idx]? = some x) (hy : arr[idx + 1]? = some y) :
    loopBody arr ⟨P ++ u :: U, P.length :: q, idx⟩ =
      some ⟨P ++ ⟨u.val,
                if x = -1 then none else some (P.length + U.length + 1),
                if y = -1 then none
                else some (P.length + U.length + 1 + (nonSentinel [x]).length)⟩ ::
              (U ++ (nonSentinel [x, y]).map (fun z => ⟨z, none, none⟩)),
            q ++ List.range' (P.length + U.length + 1) (nonSentinel [x, y]).length,
            idx + 1 + 1⟩ := by
  have a1 : ∀ (V : List Node) (w : Node), (P ++ w :: V)[P.length]? = some w :=
    fun V w => get_mid P V w
  have a2 : ∀ (V : List Node) (w w2 : Node), (P ++ w :: V).set P.length w2 = P ++ w2 :: V := by
    intro V w w2; simp
  by_cases cx : x = -1 <;> by_cases cy : y = -1 <;>
    simp [loopBody, setLeft, setRight, hx, hy, cx, cy, nonSentinel, a1, a2, List.range'] <;>
    omega

theorem nonSentinel_append (A B : List Int) :
    nonSentinel (A ++ B) = nonSentinel A ++ nonSentinel B := by
  simp [nonSentinel]

theorem take_two_more (rest : List Int) (n : Nat) (x y : Int) (hx : rest[n]? = some x)
    (hy : rest[n + 1]? = some y) : rest.take (n + 1 + 1) = rest.take n ++ [x, y] := by
  rw [List.take_succ, List.take_succ, hx, hy]
  simp

theorem buildInv_step (a0 : Int) (rest : List Int) (s : BuildState) (c : Nat)
    (hwf : WellFormed (a0 :: rest)) (hinv : BuildInv a0 rest s c)
    (hlt : s.idx < (a0 :: rest).length) :
    s.qu ≠ [] ∧ s.idx + 1 < (a0 :: rest).length ∧
      ∃ s2, loopBody (a0 :: rest) s = some s2 ∧ BuildInv a0 rest s2 (c + 1) := by
  obtain ⟨P, U, hheap, hP, hU, hqu, hidx, hkids, hfront, hvals, hc⟩ := hinv
  obtain ⟨hodd, hcount⟩ := hwf
  simp only [List.length_cons] at hlt hodd hcount
  have hn : P.length + U.length = 1 + (nonSentinel (rest.take (2 * c))).length := by
    have := congrArg List.length hvals
    simpa [Nat.add_comm] using this
  have hc1 := hcount c (by omega)
  simp only [List.drop_succ_cons, List.drop_zero] at hc1
  have hUpos : 0 < U.length := by omega
  obtain ⟨u, U2, rfl⟩ : ∃ u U2, U = u :: U2 := by
    cases U with
    | nil => simp at hUpos
    | cons u U2 => exact ⟨u, U2, rfl⟩
  have hu := hU u (by simp)
  have i1 : 2 * c < rest.length := by omega
  have i2 : 2 * c + 1 < rest.length := by omega
  have hx : (a0 :: rest)[s.idx]? = some rest[2 * c] := by
    rw [hidx, List.getElem?_cons_succ, List.getElem?_eq_getElem i1]
  have hy : (a0 :: rest)[s.idx + 1]? = some rest[2 * c + 1] := by
    rw [hidx, List.getElem?_cons_succ, List.getElem?_eq_getElem i2]
  have hs : s = ⟨P ++ u :: U2, P.length :: List.range' (c + 1) U2.length, s.idx⟩ := by
    cases s
    simp only [List.length_cons, List.range'_succ] at hqu
    simp only at hheap hidx
    simp [hheap, hqu, hP]
  have hrun := loopBody_run (a0 :: rest) P U2 u (List.range' (c + 1) U2.length) s.idx
    rest[2 * c] rest[2 * c + 1] hx hy
  rw [← hs] at hrun
  refine ⟨by rw [hqu]; simp [List.range'_succ], by simp only [List.length_cons]; omega,
    _, hrun, ?_⟩
  set x := rest[2 * c] with hxdef
  set y := rest[2 * c + 1] with hydef
  have htake : rest.take (2 * (c + 1)) = rest.take (2 * c) ++ [x, y] := by
    have : 2 * (c + 1) = 2 * c + 1 + 1 := by ring
    rw [this]
    exact take_two_more rest (2 * c) x y (List.getElem?_eq_getElem i1)
      (List.getElem?_eq_getElem i2)
  have hcnt1 : (nonSentinel [x]).length = if x = -1 then 0 else 1 := by
    by_cases cx : x = -1 <;> simp [nonSentinel, cx]
  have hcnt2 : (nonSentinel [x, y]).length =
      (if x = -1 then 0 else 1) + (if y = -1 then 0 else 1) := by
    by_cases cx : x = -1 <;> by_cases cy : y = -1 <;> simp [nonSentinel, cx, cy]
  refine ⟨P ++ [⟨u.val, if x = -1 then none else some (P.length + U2.length + 1),
      if y = -1 then none else some (P.length + U2.length + 1 + (nonSentinel [x]).length)⟩],
    U2 ++ (nonSentinel [x, y]).map (fun z => ⟨z, none, none⟩), ?_, ?_, ?_, ?_, ?_, ?_, ?_, ?_, ?_⟩
  · simp
  · simp [hP]
  · intro w hw
    rw [List.mem_append] at hw
    rcases hw with hw | hw
    · exact hU w (by simp [hw])
    · rw [List.mem_map] at hw
      obtain ⟨z, -, rfl⟩ := hw
      exact ⟨rfl, rfl⟩
  · simp only [List.length_append, List.length_map]
    have : P.length + U2.length + 1 = (c + 1) + U2.length := by omega
    rw [this, List.range'_append_1]
    congr 1
    omega
  · simp only [hidx]; ring
  · rw [kids_append, hkids]
    simp only [kids, List.append_nil, List.length_append, List.length_cons, List.length_nil,
      List.length_map]
    have hp : ptrs ⟨u.val, if x = -1 then none else some (P.length + U2.length + 1),
        if y = -1 then none else some (P.length + U2.length + 1 + (nonSentinel [x]).length)⟩ =
        List.range' (P.length + U2.length + 1) (nonSentinel [x, y]).length := by
      by_cases cx : x = -1 <;> by_cases cy : y = -1 <;>
        simp [ptrs, nonSentinel, cx, cy, List.range']
    rw [hp]
    have e1 : P.length + (U2.length + 1) - 1 = P.length + U2.length := by omega
    have e2 : P.length + U2.length + 1 = 1 + (P.length + U2.length) := by omega
    rw [e1, e2, List.range'_append_1]
    congr 1
    omega
  · intro i hi
    rcases Nat.lt_or_ge i c with h | h
    · have := hfront i h
      rw [List.take_append_of_le_length (by omega)]
      exact this
    · have : i = c := by omega
      subst this
      rw [← hP, List.take_left, hkids, List.length_range']
      simp only [List.length_cons]
      omega
  · rw [htake, nonSentinel_append, ← List.cons_append, ← hvals]
    simp [Function.comp_def]
  · omega


/-! ## The whole loop -/

theorem buildInv_init (a0 : Int) (rest : List Int) : BuildInv a0 rest (initState a0) 0 := by
  refine ⟨[], [⟨a0, none, none⟩], rfl, rfl, ?_, rfl, rfl, rfl, ?_, ?_, Nat.zero_le _⟩
  · intro u hu
    simp only [List.mem_singleton] at hu
    subst hu
    exact ⟨rfl, rfl⟩
  · intro i hi; omega
  · simp [nonSentinel]

theorem buildLoop_inv (a0 : Int) (rest : List Int) (hwf : WellFormed (a0 :: rest))
    (fuel : Nat) : ∀ s c, BuildInv a0 rest s c → (a0 :: rest).length ≤ s.idx + fuel →
      ∃ s2 c2, buildLoop (a0 :: rest) fuel s = some s2 ∧ BuildInv a0 rest s2 c2 ∧
        2 * c2 = rest.length := by
  induction fuel with
  | zero =>
    intro s c hinv hf
    have hinv2 := hinv
    obtain ⟨P, U, -, -, -, -, hidx, -, -, -, hc⟩ := hinv
    simp only [List.length_cons] at hf
    refine ⟨s, c, ?_, hinv2, by omega⟩
    simp only [buildLoop, List.length_cons]
    rw [if_neg (by omega)]
  | succ k ih =>
    intro s c hinv hf
    by_cases hlt : s.idx < (a0 :: rest).length
    · obtain ⟨-, -, s2, hbody, hinv2⟩ := buildInv_step a0 rest s c hwf hinv hlt
      have hidx2 : s2.idx = s.idx + 2 := by
        obtain ⟨_, _, -, -, -, -, h1, -, -, -, -⟩ := hinv
        obtain ⟨_, _, -, -, -, -, h2, -, -, -, -⟩ := hinv2
        omega
      obtain ⟨s3, c3, h3, hinv3, hc3⟩ := ih s2 (c + 1) hinv2 (by omega)
      refine ⟨s3, c3, ?_, hinv3, hc3⟩
      rw [buildLoop, if_pos hlt, hbody]
      exact h3
    · have hinv2 := hinv
      obtain ⟨P, U, -, -, -, -, hidx, -, -, -, hc⟩ := hinv
      simp only [List.length_cons] at hlt
      refine ⟨s, c, ?_, hinv2, by omega⟩
      rw [buildLoop, if_neg (by simpa using hlt)]

theorem buildInv_goodHeap (a0 : Int) (rest : List Int) (s : BuildState) (c : Nat)
    (hinv : BuildInv a0 rest s c) (hc : 2 * c = rest.length) :
    GoodHeap s.heap ∧ s.heap.map Node.val = a0 :: nonSentinel rest := by
  obtain ⟨P, U, hheap, hP, hU, hqu, hidx, hkids, hfront, hvals, -⟩ := hinv
  have hkU := kids_childless U hU
  have hlen : P.length + U.length = 1 + (nonSentinel (rest.take (2 * c))).length := by
    have := congrArg List.length hvals
    simpa [Nat.add_comm] using this
  rw [hheap]
  refine ⟨⟨?_, ?_, ?_⟩, ?_⟩
  · intro h
    have := congrArg List.length h
    simp only [List.length_append, List.length_nil] at this
    omega
  · rw [kids_append, hkU, List.append_nil, hkids, List.length_append]
  · intro i hi
    rcases Nat.lt_or_ge i c with h | h
    · rw [List.take_append_of_le_length (by omega)]
      exact hfront i h
    · have e : List.take i (P ++ U) = P ++ List.take (i - P.length) U := by
        rw [List.take_append_eq_append_take, List.take_of_length_le (by omega)]
      have hk2 : kids (List.take (i - P.length) U) = [] :=
        kids_childless _ (fun u hu => hU u (List.mem_of_mem_take hu))
      rw [e, kids_append, hk2, List.append_nil, hkids, List.length_range']
      simp only [List.length_append] at hi
      omega
  · rw [hvals, hc, List.take_length]

theorem getBinaryTree_wf (a0 : Int) (rest : List Int) (hwf : WellFormed (a0 :: rest)) :
    ∃ l r, getBinaryTree (a0 :: rest) = some (.node l a0 r) ∧
      levelOrder (.node l a0 r) = a0 :: nonSentinel rest ∧
      size (.node l a0 r) = 1 + (nonSentinel rest).length := by
  obtain ⟨s, c, hloop, hinv, hc⟩ := buildLoop_inv a0 rest hwf (a0 :: rest).length
    (initState a0) 0 (buildInv_init a0 rest) (by simp [initState])
  obtain ⟨hg, hv⟩ := buildInv_goodHeap a0 rest s c hinv hc
  obtain ⟨h1, h2, h3⟩ := goodHeap_levelOrder s.heap hg
  have hpos : 0 < s.heap.length := List.length_pos.2 hg.1
  have h0 : s.heap[0]? = some s.heap[0] := List.getElem?_eq_getElem hpos
  have hval : s.heap[0].val = a0 := by
    have := congrArg (fun l => l[0]?) hv
    simp only [List.getElem?_map, h0, Option.map_some', List.getElem?_cons_zero] at this
    exact Option.some.inj this
  have hroot := treeAt_eq s.heap hg 0 _ h0
  rw [hval] at hroot
  refine ⟨optTree s.heap s.heap[0].left, optTree s.heap s.heap[0].right, ?_, ?_, ?_⟩
  · simp only [getBinaryTree]
    have : buildLoop (a0 :: rest) (a0 :: rest).length ⟨[⟨a0, none, none⟩], [0], 1⟩ = some s :=
      hloop
    rw [this]
    simp only [h1, hroot]
  · rw [← hroot, h2, hv]
  · rw [← hroot, h3]
    have := congrArg List.length hv
    simpa [Nat.add_comm] using this


/-- C17. For every well-formed array, `getBinaryTree` returns a tree whose root holds
`arr[0]` (whatever its value, `-1` included), whose level-order listing is `arr[0]` followed
by the entries of `arr[1..]` different from `-1`, in order, and whose number of nodes is one
plus the number of those entries; for the empty array it returns the empty tree. -/
theorem getBinaryTree_levelOrder (arr : List Int) (hwf : WellFormed arr) :
    getBinaryTree [] = some .nil ∧
      ∃ a0 l r, arr.head? = some a0 ∧ getBinaryTree arr = some (.node l a0 r) ∧
        levelOrder (.node l a0 r) = a0 :: nonSentinel arr.tail ∧
        size (.node l a0 r) = 1 + (nonSentinel arr.tail).length := by
  refine ⟨rfl, ?_⟩
  cases arr with
  | nil => exact absurd hwf.1 (by decide)
  | cons a0 rest =>
    obtain ⟨l, r, h1, h2, h3⟩ := getBinaryTree_wf a0 rest hwf
    exact ⟨a0, l, r, rfl, h1, h2, h3⟩

/-- Witness for C17 on `[-1, 4, -1]`: the root holds `-1` and the listing is `[-1, 4]`. -/
theorem getBinaryTree_levelOrder_witness :
    WellFormed [-1, 4, -1] ∧
      ∃ a0 l r, [(-1 : Int), 4, -1].head? = some a0 ∧
        getBinaryTree [-1, 4, -1] = some (.node l a0 r) ∧
        levelOrder (.node l a0 r) = a0 :: nonSentinel [(-1 : Int), 4, -1].tail ∧
        size (.node l a0 r) = 1 + (nonSentinel [(-1 : Int), 4, -1].tail).length := by
  have wf : WellFormed [-1, 4, -1] := by
    refine ⟨by decide, ?_⟩
    intro k hk
    simp only [List.length_cons, List.length_nil] at hk
    omega
  exact ⟨wf, (getBinaryTree_levelOrder [-1, 4, -1] wf).2⟩


/-! ## Safety of the builder -/

theorem runIters_inv (a0 : Int) (rest : List Int) (hwf : WellFormed (a0 :: rest)) (k : Nat) :
    ∀ s c s2, BuildInv a0 rest s c → runIters (a0 :: rest) k s = some s2 →
      BuildInv a0 rest s2 (c + k) := by
  induction k with
  | zero =>
    intro s c s2 hinv hrun
    simp only [runIters, Option.some.injEq] at hrun
    subst hrun
    exact hinv
  | succ k ih =>
    intro s c s2 hinv hrun
    rw [runIters] at hrun
    by_cases hlt : s.idx < (a0 :: rest).length
    · rw [if_pos hlt] at hrun
      obtain ⟨-, -, s1, hbody, hinv1⟩ := buildInv_step a0 rest s c hwf hinv hlt
      rw [hbody] at hrun
      have := ih s1 (c + 1) s2 hinv1 hrun
      have e : c + (k + 1) = c + 1 + k := by omega
      rw [e]
      exact this
    · rw [if_neg hlt] at hrun
      cases hrun

theorem loopBody_none (arr : List Int) (s : BuildState)
    (h : s.qu = [] ∨ arr.length ≤ s.idx + 1) : loopBody arr s = none := by
  rcases h with h | h
  · simp [loopBody, h]
  · have hy : arr[s.idx + 1]? = none := List.getElem?_eq_none h
    unfold loopBody
    split
    · rfl
    · split
      · rfl
      · split
        · rfl
        · rw [hy]

theorem runIters_buildLoop_none (arr : List Int) (k : Nat) :
    ∀ s s2 fuel, runIters arr k s = some s2 → s2.idx < arr.length → loopBody arr s2 = none →
      buildLoop arr fuel s = none := by
  induction k with
  | zero =>
    intro s s2 fuel hrun hlt hnone
    simp only [runIters, Option.some.injEq] at hrun
    subst hrun
    cases fuel with
    | zero => simp [buildLoop, hlt]
    | succ n => simp [buildLoop, hlt, hnone]
  | succ k ih =>
    intro s s2 fuel hrun hlt hnone
    rw [runIters] at hrun
    by_cases hs : s.idx < arr.length
    · rw [if_pos hs] at hrun
      cases hb : loopBody arr s with
      | none => rw [hb] at hrun; cases hrun
      | some s1 =>
        rw [hb] at hrun
        cases fuel with
        | zero => simp [buildLoop, hs]
        | succ n =>
          rw [buildLoop, if_pos hs, hb]
          exact ih s1 s2 n hrun hlt hnone
    · rw [if_neg hs] at hrun
      cases hrun

theorem queueOk_step (arr : List Int) (s : BuildState) (hok : QueueOk s) (hq : s.qu ≠ [])
    (hlt : s.idx + 1 < arr.length) :
    ∃ s2, loopBody arr s = some s2 ∧ QueueOk s2 ∧ s2.idx = s.idx + 2 := by
  obtain ⟨hptr, hodd⟩ := hok
  obtain ⟨heap, qu, idx⟩ := s
  simp only at hptr hodd hq hlt
  cases qu with
  | nil => exact absurd rfl hq
  | cons curr q =>
    have hc : curr < heap.length := hptr curr (by simp)
    have hsplit : heap = heap.take curr ++ heap[curr] :: heap.drop (curr + 1) := by
      conv_lhs => rw [← List.take_append_drop curr heap, List.drop_eq_getElem_cons hc]
    have hlen : (heap.take curr).length = curr := by
      rw [List.length_take]; omega
    have hx : arr[idx]? = some arr[idx] := List.getElem?_eq_getElem (by omega)
    have hy : arr[idx + 1]? = some arr[idx + 1] := List.getElem?_eq_getElem hlt
    have hrun := loopBody_run arr (heap.take curr) (heap.drop (curr + 1)) heap[curr] q idx
      arr[idx] arr[idx + 1] hx hy
    rw [hlen, ← hsplit] at hrun
    refine ⟨_, hrun, ⟨?_, ?_⟩, rfl⟩
    · intro p hp
      simp only [List.length_append, List.length_cons, List.length_map, List.length_drop,
        List.length_take]
      rw [List.mem_append] at hp
      rcases hp with hp | hp
      · have := hptr p (by simp [hp])
        omega
      · rw [List.mem_range'_1] at hp
        simp only [List.length_drop] at hp
        omega
    · simp only
      omega

theorem even_fails (arr : List Int) (heven : arr.length % 2 = 0) (m : Nat) :
    ∀ s, QueueOk s → s.idx < arr.length → arr.length - s.idx ≤ m →
      ∃ k s2, runIters arr k s = some s2 ∧ s2.idx < arr.length ∧
        (s2.qu = [] ∨ arr.length ≤ s2.idx + 1) := by
  induction m with
  | zero => intro s _ h1 h2; omega
  | succ m ih =>
    intro s hok h1 h2
    by_cases hq : s.qu = []
    · exact ⟨0, s, rfl, h1, Or.inl hq⟩
    · by_cases hy : arr.length ≤ s.idx + 1
      · exact ⟨0, s, rfl, h1, Or.inr hy⟩
      · obtain ⟨s1, hbody, hok1, hidx1⟩ := queueOk_step arr s hok hq (by omega)
        have hodd := hok.2
        obtain ⟨k, s2, hrun, hlt2, hfail⟩ := ih s1 hok1 (by omega) (by omega)
        refine ⟨k + 1, s2, ?_, hlt2, hfail⟩
        rw [runIters, if_pos h1, hbody]
        exact hrun

/-- C18. Safety of the builder. On a well-formed array every iteration that the loop enters
finds the queue non-empty and both accesses `arr[idx]` in bounds, the iteration succeeds,
and `getBinaryTree` returns a tree. On an array of even length at least `2` some iteration is
entered in which the queue is empty or the second access `arr[idx]` is out of bounds, and the
embedded `getBinaryTree` returns `none`. -/
theorem getBinaryTree_safety (a0 : Int) (rest : List Int) :
    (WellFormed (a0 :: rest) →
      (∃ t, getBinaryTree (a0 :: rest) = some t) ∧
      ∀ k s, runIters (a0 :: rest) k (initState a0) = some s → s.idx < (a0 :: rest).length →
        s.qu ≠ [] ∧ s.idx + 1 < (a0 :: rest).length ∧
          ∃ s2, loopBody (a0 :: rest) s = some s2) ∧
    ((a0 :: rest).length % 2 = 0 →
      getBinaryTree (a0 :: rest) = none ∧
      ∃ k s, runIters (a0 :: rest) k (initState a0) = some s ∧ s.idx < (a0 :: rest).length ∧
        (s.qu = [] ∨ (a0 :: rest).length ≤ s.idx + 1)) := by
  constructor
  · intro hwf
    obtain ⟨l, r, h1, -, -⟩ := getBinaryTree_wf a0 rest hwf
    refine ⟨⟨_, h1⟩, ?_⟩
    intro k s hrun hlt
    have hinv := runIters_inv a0 rest hwf k _ 0 s (buildInv_init a0 rest) hrun
    obtain ⟨q1, q2, s2, hbody, -⟩ := buildInv_step a0 rest s _ hwf hinv hlt
    exact ⟨q1, q2, s2, hbody⟩
  · intro heven
    have hok : QueueOk (initState a0) := by
      refine ⟨?_, rfl⟩
      intro p hp
      simp only [initState, List.mem_singleton] at hp
      subst hp
      simp [initState]
    have hlt : (initState a0).idx < (a0 :: rest).length := by
      simp only [initState, List.length_cons] at heven ⊢
      omega
    obtain ⟨k, s, hrun, hlt2, hfail⟩ :=
      even_fails (a0 :: rest) heven (a0 :: rest).length (initState a0) hok hlt (by omega)
    refine ⟨?_, k, s, hrun, hlt2, hfail⟩
    have hnone := runIters_buildLoop_none (a0 :: rest) k (initState a0) s (a0 :: rest).length
      hrun hlt2 (loopBody_none _ s hfail)
    simp only [getBinaryTree]
    have : buildLoop (a0 :: rest) (a0 :: rest).length ⟨[⟨a0, none, none⟩], [0], 1⟩ = none :=
      hnone
    rw [this]

/-- Witness for C18: the well-formed `[2, 1, 3]` is built, the even-length `[2, 1]` fails. -/
theorem getBinaryTree_safety_witness :
    WellFormed [2, 1, 3] ∧ (∃ t, getBinaryTree [2, 1, 3] = some t) ∧
      [(2 : Int), 1].length % 2 = 0 ∧ getBinaryTree [2, 1] = none := by
  have wf : WellFormed [2, 1, 3] := by
    refine ⟨by decide, ?_⟩
    intro k hk
    simp only [List.length_cons, List.length_nil] at hk
    omega
  exact ⟨wf, ((getBinaryTree_safety 2 [1, 3]).1 wf).1, by decide,
    ((getBinaryTree_safety 2 [1]).2 (by decide)).1⟩

end MaxSumBST
